import Mathlib

open Classical

/-! Shallow embedding of the prioritized, importance-sampled replay buffer
(class PER_IS_ReplayBuffer in src/learn/utils.py).  Python lists of length
2*capacity are modelled as total functions on ℕ; cells outside the list are
ghost cells that none of the theorems below depend on.  Python floats are
modelled as real numbers, and the float('inf') entries of the min tree by ⊤
in WithTop ℝ.  Python's float ** is modelled by Real.rpow (so 0.0 ** 0.0 = 1,
matching Python). -/

/-- One transition record: the five columns of the data dictionary of the
buffer, read row-wise. -/
structure Transition where
  obs : List ℝ
  action : ℤ
  reward : ℝ
  next_obs : List ℝ
  done : Bool

/-- The mutable state of a PER_IS_ReplayBuffer. -/
structure PER_IS_ReplayBuffer where
  capacity : ℕ
  alpha : ℝ
  priority_sum : ℕ → ℝ
  priority_min : ℕ → WithTop ℝ
  max_priority : ℝ
  data : ℕ → Transition
  next_idx : ℕ
  size : ℕ

/-- The all-zero row numpy writes into a fresh column of a given width. -/
def zeroTransition (state_dim : ℕ) : Transition :=
  { obs := List.replicate state_dim 0
    action := 0
    reward := 0
    next_obs := List.replicate state_dim 0
    done := false }

/-- PER_IS_ReplayBuffer.__init__ (utils.py lines 96-110). -/
def PER_IS_ReplayBuffer.init (capacity : ℕ) (alpha : ℝ) (state_dim : ℕ) :
    PER_IS_ReplayBuffer :=
  { capacity := capacity
    alpha := alpha
    priority_sum := fun _ => 0
    priority_min := fun _ => ⊤
    max_priority := 1
    data := fun _ => zeroTransition state_dim
    next_idx := 0
    size := 0 }

/-- The upward walk shared by _set_priority_min and _set_priority_sum:
while idx >= 2: idx //= 2; tree[idx] = comb tree[2*idx] tree[2*idx+1]. -/
def setTreeLoop {α : Type} (comb : α → α → α) (f : ℕ → α) (idx : ℕ) : ℕ → α :=
  if 2 ≤ idx then
    setTreeLoop comb
      (Function.update f (idx / 2) (comb (f (2 * (idx / 2))) (f (2 * (idx / 2) + 1))))
      (idx / 2)
  else f
termination_by idx
decreasing_by exact Nat.div_lt_self (by omega) (by omega)

/-- PER_IS_ReplayBuffer.set_priority_min (utils.py lines 127-132). -/
noncomputable def PER_IS_ReplayBuffer.set_priority_min (s : PER_IS_ReplayBuffer) (idx : ℕ)
    (priority_alpha : ℝ) : PER_IS_ReplayBuffer :=
  { s with priority_min :=
      (setTreeLoop min
        (Function.update s.priority_min (idx + s.capacity) (priority_alpha : WithTop ℝ))
        (idx + s.capacity)) }

/-- PER_IS_ReplayBuffer.set_priority_sum (utils.py lines 134-139). -/
noncomputable def PER_IS_ReplayBuffer.set_priority_sum (s : PER_IS_ReplayBuffer) (idx : ℕ)
    (priority_alpha : ℝ) : PER_IS_ReplayBuffer :=
  { s with priority_sum :=
      (setTreeLoop (· + ·)
        (Function.update s.priority_sum (idx + s.capacity) priority_alpha)
        (idx + s.capacity)) }

/-- PER_IS_ReplayBuffer.push (utils.py lines 112-125).  The Python method has
no return statement, so its value is None; the second component of the result
records that returned value as an Option ℕ (always none). -/
noncomputable def PER_IS_ReplayBuffer.push (s : PER_IS_ReplayBuffer) (t : Transition) :
    PER_IS_ReplayBuffer × Option ℕ :=
  let idx := s.next_idx
  let s1 := { s with
    data := Function.update s.data idx t
    next_idx := (idx + 1) % s.capacity
    size := min s.capacity (s.size + 1) }
  let priority_alpha := s1.max_priority ^ s1.alpha
  ((s1.set_priority_min idx priority_alpha).set_priority_sum idx priority_alpha, none)

/-- PER_IS_ReplayBuffer.total_sum (utils.py lines 141-142). -/
def PER_IS_ReplayBuffer.total_sum (s : PER_IS_ReplayBuffer) : ℝ := s.priority_sum 1

/-- PER_IS_ReplayBuffer.total_min (utils.py lines 144-145). -/
def PER_IS_ReplayBuffer.total_min (s : PER_IS_ReplayBuffer) : WithTop ℝ := s.priority_min 1

/-- The while loop of find_prefix_sum_idx, with an explicit fuel argument;
capacity units of fuel always let the loop run to a leaf (findLoop_stable
below shows the value is then independent of the fuel, i.e. the source's
unbounded while loop terminates with this value). -/
noncomputable def findLoop (s : PER_IS_ReplayBuffer) : ℕ → ℕ → ℝ → ℕ
  | 0, idx, _ => idx
  | fuel + 1, idx, prefix_sum =>
    if idx < s.capacity then
      if s.priority_sum (idx * 2) > prefix_sum then
        findLoop s fuel (2 * idx) prefix_sum
      else
        findLoop s fuel (2 * idx + 1) (prefix_sum - s.priority_sum (idx * 2))
    else idx

/-- The tree cells the loop of find_prefix_sum_idx reads, in order. -/
noncomputable def findLoopReads (s : PER_IS_ReplayBuffer) : ℕ → ℕ → ℝ → List ℕ
  | 0, _, _ => []
  | fuel + 1, idx, prefix_sum =>
    if idx < s.capacity then
      (idx * 2) ::
        (if s.priority_sum (idx * 2) > prefix_sum then
          findLoopReads s fuel (2 * idx) prefix_sum
        else
          findLoopReads s fuel (2 * idx + 1) (prefix_sum - s.priority_sum (idx * 2)))
    else []

/-- PER_IS_ReplayBuffer.find_prefix_sum_idx (utils.py lines 147-156). -/
noncomputable def PER_IS_ReplayBuffer.find_prefix_sum_idx (s : PER_IS_ReplayBuffer)
    (prefix_sum : ℝ) : ℕ :=
  findLoop s s.capacity 1 prefix_sum - s.capacity

/-- The batch dictionary built by PER_IS_ReplayBuffer.sample. -/
structure SampleBatch where
  weights : List ℝ
  indexes : List ℕ
  obs : List (List ℝ)
  action : List ℤ
  reward : List ℝ
  next_obs : List (List ℝ)
  done : List Bool

/-- PER_IS_ReplayBuffer.sample (utils.py lines 158-182).  The successive
draws of random.random() are passed in as rand (draw i is rand i ∈ [0, 1)).
The root of the min tree can be +infinity only while no cell was ever set, a
state in which Python already divides by the zero total; WithTop.untop' 0
extracts the real value in every state the claims sample in.  The first
component of the result is the buffer state after the call: the method
assigns to no attribute of self, so it is returned unchanged. -/
noncomputable def PER_IS_ReplayBuffer.sample (s : PER_IS_ReplayBuffer) (batch_size : ℕ)
    (beta : ℝ) (rand : ℕ → ℝ) : PER_IS_ReplayBuffer × SampleBatch :=
  let indexes := (List.range batch_size).map fun i =>
    s.find_prefix_sum_idx (rand i * s.total_sum)
  let prob_min := (WithTop.untop' 0 s.total_min) / s.total_sum
  let max_weight := (prob_min * (s.size : ℝ)) ^ (-beta)
  let weights := indexes.map fun idx =>
    let prob := s.priority_sum (idx + s.capacity) / s.total_sum
    ((prob * (s.size : ℝ)) ^ (-beta)) / max_weight
  (s,
    { weights := weights
      indexes := indexes
      obs := indexes.map fun i => (s.data i).obs
      action := indexes.map fun i => (s.data i).action
      reward := indexes.map fun i => (s.data i).reward
      next_obs := indexes.map fun i => (s.data i).next_obs
      done := indexes.map fun i => (s.data i).done })

/-- PER_IS_ReplayBuffer.update_priorities (utils.py lines 184-190); the two
argument sequences are consumed through zip exactly as in the source. -/
noncomputable def PER_IS_ReplayBuffer.update_priorities (s : PER_IS_ReplayBuffer)
    (indexes : List ℕ) (priorities : List ℝ) : PER_IS_ReplayBuffer :=
  (indexes.zip priorities).foldl
    (fun st ip =>
      let st1 := { st with max_priority := max st.max_priority ip.2 }
      let priority_alpha := ip.2 ^ st1.alpha
      (st1.set_priority_min ip.1 priority_alpha).set_priority_sum ip.1 priority_alpha)
    s

/-- PER_IS_ReplayBuffer.is_full (utils.py lines 192-193). -/
def PER_IS_ReplayBuffer.is_full (s : PER_IS_ReplayBuffer) : Bool :=
  s.capacity == s.size

/-- PER_IS_ReplayBuffer.__len__ (utils.py lines 195-196). -/
def PER_IS_ReplayBuffer.len (s : PER_IS_ReplayBuffer) : ℕ := s.size

/-- One call against the buffer, for stating whole-life properties. -/
inductive BufferOp where
  | pushOp (t : Transition)
  | updateOp (indexes : List ℕ) (priorities : List ℝ)
  | sampleOp (batch_size : ℕ) (beta : ℝ) (rand : ℕ → ℝ)

noncomputable def applyOp (s : PER_IS_ReplayBuffer) : BufferOp → PER_IS_ReplayBuffer
  | .pushOp t => (s.push t).1
  | .updateOp ix ps => s.update_priorities ix ps
  | .sampleOp n b r => (s.sample n b r).1

noncomputable def runOps (s : PER_IS_ReplayBuffer) (ops : List BufferOp) :
    PER_IS_ReplayBuffer :=
  ops.foldl applyOp s

/-- Sum half of the segment tree invariant: every internal node carries the
sum of its two children. -/
def sumTreeInvariant (s : PER_IS_ReplayBuffer) : Prop :=
  ∀ n, 1 ≤ n → n < s.capacity →
    s.priority_sum n = s.priority_sum (2 * n) + s.priority_sum (2 * n + 1)

/-- Min half of the segment tree invariant: every internal node carries the
min of its two children. -/
def minTreeInvariant (s : PER_IS_ReplayBuffer) : Prop :=
  ∀ n, 1 ≤ n → n < s.capacity →
    s.priority_min n = min (s.priority_min (2 * n)) (s.priority_min (2 * n + 1))

/-- The call sequences claim C1 ranges over: update_priorities is only given
in-range indices and non-negative priorities. -/
def ValidOps (capacity : ℕ) (ops : List BufferOp) : Prop :=
  ∀ op ∈ ops, match op with
    | .updateOp ix ps => (∀ i ∈ ix, i < capacity) ∧ (∀ p ∈ ps, 0 ≤ p)
    | _ => True

/-! ### Lemmas about the upward walk of the two set_priority methods -/

/-- Cells that are not strict ancestors of the starting cell are untouched by
the upward walk. -/
theorem setTreeLoop_untouched {α : Type} (comb : α → α → α) :
    ∀ idx (f : ℕ → α) (n : ℕ), (∀ k, 1 ≤ k → idx / 2 ^ k ≠ n) →
      setTreeLoop comb f idx n = f n := by
  intro idx
  induction idx using Nat.strong_induction_on with
  | _ idx ih =>
    intro f n hn
    rw [setTreeLoop]
    split
    · rename_i h2
      rw [ih (idx / 2) (Nat.div_lt_self (by omega) (by omega)) _ n ?_]
      · exact Function.update_noteq (fun he => hn 1 le_rfl (by simpa using he.symm)) _ _
      · intro k hk
        have : idx / 2 / 2 ^ k = idx / 2 ^ (k + 1) := by
          rw [Nat.div_div_eq_div_mul, ← pow_succ']
        rw [this]
        exact hn (k + 1) (by omega)
    · rfl

/-- After the upward walk, every strict ancestor of the starting cell holds
the combine of its two children. -/
theorem setTreeLoop_anc {α : Type} (comb : α → α → α) :
    ∀ idx (f : ℕ → α) (n : ℕ), 1 ≤ n → (∃ k, 1 ≤ k ∧ idx / 2 ^ k = n) →
      setTreeLoop comb f idx n =
        comb (setTreeLoop comb f idx (2 * n)) (setTreeLoop comb f idx (2 * n + 1)) := by
  intro idx
  induction idx using Nat.strong_induction_on with
  | _ idx ih =>
    intro f n h1 hanc
    obtain ⟨k, hk, hkeq⟩ := hanc
    by_cases h2 : 2 ≤ idx
    · rw [setTreeLoop, if_pos h2]
      have hih := ih (idx / 2) (Nat.div_lt_self (by omega) (by omega))
      have hdd : ∀ j, idx / 2 / 2 ^ j = idx / 2 ^ (j + 1) := by
        intro j; rw [Nat.div_div_eq_div_mul, ← pow_succ']
      by_cases hni : n = idx / 2
      · subst hni
        have hself : ∀ j, 1 ≤ j → (idx / 2) / 2 ^ j ≠ idx / 2 := by
          intro j hj he
          have h2j : 2 ≤ 2 ^ j := by
            calc 2 = 2 ^ 1 := (pow_one 2).symm
            _ ≤ 2 ^ j := Nat.pow_le_pow_right (by omega) hj
          have := Nat.div_le_div_right (c := 2 ^ j) (Nat.le_refl (idx / 2))
          have hlt : idx / 2 / 2 ^ j < idx / 2 :=
            Nat.div_lt_self (by omega) (by omega)
          omega
        rw [setTreeLoop_untouched comb (idx / 2) _ (idx / 2) hself,
            Function.update_same]
        have hle : ∀ j, 1 ≤ j → idx / 2 / 2 ^ j ≤ idx / 2 := fun j hj =>
          Nat.div_le_self _ _
        rw [setTreeLoop_untouched comb (idx / 2) _ (2 * (idx / 2))
              (fun j hj he => by have := hle j hj; omega),
            setTreeLoop_untouched comb (idx / 2) _ (2 * (idx / 2) + 1)
              (fun j hj he => by have := hle j hj; omega)]
        rw [Function.update_noteq (by omega), Function.update_noteq (by omega)]
      · have hk2 : 2 ≤ k := by
          rcases Nat.lt_or_ge k 2 with hlt | hge
          · interval_cases k
            · exact absurd (by simpa using hkeq.symm) hni
          · exact hge
        have : idx / 2 / 2 ^ (k - 1) = n := by
          rw [hdd (k - 1)]
          have : k - 1 + 1 = k := by omega
          rw [this, hkeq]
        exact hih _ n h1 ⟨k - 1, by omega, this⟩
    · exfalso
      have : idx / 2 ^ k = 0 := by
        apply Nat.div_eq_of_lt
        calc idx < 2 := by omega
        _ ≤ 2 ^ k := by
          calc 2 = 2 ^ 1 := (pow_one 2).symm
          _ ≤ 2 ^ k := Nat.pow_le_pow_right (by omega) hk
      omega

/-! ### Field bookkeeping for the mutating methods -/

@[simp] theorem set_priority_min_capacity (s : PER_IS_ReplayBuffer) (i : ℕ) (p : ℝ) :
    (s.set_priority_min i p).capacity = s.capacity := rfl

@[simp] theorem set_priority_min_priority_sum (s : PER_IS_ReplayBuffer) (i : ℕ) (p : ℝ) :
    (s.set_priority_min i p).priority_sum = s.priority_sum := rfl

@[simp] theorem set_priority_min_max_priority (s : PER_IS_ReplayBuffer) (i : ℕ) (p : ℝ) :
    (s.set_priority_min i p).max_priority = s.max_priority := rfl

@[simp] theorem set_priority_min_data (s : PER_IS_ReplayBuffer) (i : ℕ) (p : ℝ) :
    (s.set_priority_min i p).data = s.data := rfl

@[simp] theorem set_priority_min_next_idx (s : PER_IS_ReplayBuffer) (i : ℕ) (p : ℝ) :
    (s.set_priority_min i p).next_idx = s.next_idx := rfl

@[simp] theorem set_priority_min_size (s : PER_IS_ReplayBuffer) (i : ℕ) (p : ℝ) :
    (s.set_priority_min i p).size = s.size := rfl

@[simp] theorem set_priority_min_alpha (s : PER_IS_ReplayBuffer) (i : ℕ) (p : ℝ) :
    (s.set_priority_min i p).alpha = s.alpha := rfl

theorem set_priority_min_priority_min (s : PER_IS_ReplayBuffer) (i : ℕ) (p : ℝ) :
    (s.set_priority_min i p).priority_min =
      setTreeLoop min
        (Function.update s.priority_min (i + s.capacity) (p : WithTop ℝ))
        (i + s.capacity) := rfl

@[simp] theorem set_priority_sum_capacity (s : PER_IS_ReplayBuffer) (i : ℕ) (p : ℝ) :
    (s.set_priority_sum i p).capacity = s.capacity := rfl

@[simp] theorem set_priority_sum_priority_min (s : PER_IS_ReplayBuffer) (i : ℕ) (p : ℝ) :
    (s.set_priority_sum i p).priority_min = s.priority_min := rfl

@[simp] theorem set_priority_sum_max_priority (s : PER_IS_ReplayBuffer) (i : ℕ) (p : ℝ) :
    (s.set_priority_sum i p).max_priority = s.max_priority := rfl

@[simp] theorem set_priority_sum_data (s : PER_IS_ReplayBuffer) (i : ℕ) (p : ℝ) :
    (s.set_priority_sum i p).data = s.data := rfl

@[simp] theorem set_priority_sum_next_idx (s : PER_IS_ReplayBuffer) (i : ℕ) (p : ℝ) :
    (s.set_priority_sum i p).next_idx = s.next_idx := rfl

@[simp] theorem set_priority_sum_size (s : PER_IS_ReplayBuffer) (i : ℕ) (p : ℝ) :
    (s.set_priority_sum i p).size = s.size := rfl

@[simp] theorem set_priority_sum_alpha (s : PER_IS_ReplayBuffer) (i : ℕ) (p : ℝ) :
    (s.set_priority_sum i p).alpha = s.alpha := rfl

theorem set_priority_sum_priority_sum (s : PER_IS_ReplayBuffer) (i : ℕ) (p : ℝ) :
    (s.set_priority_sum i p).priority_sum =
      setTreeLoop (· + ·)
        (Function.update s.priority_sum (i + s.capacity) p)
        (i + s.capacity) := rfl

@[simp] theorem push_state_capacity (s : PER_IS_ReplayBuffer) (t : Transition) :
    (s.push t).1.capacity = s.capacity := rfl

@[simp] theorem push_state_alpha (s : PER_IS_ReplayBuffer) (t : Transition) :
    (s.push t).1.alpha = s.alpha := rfl

@[simp] theorem push_state_max_priority (s : PER_IS_ReplayBuffer) (t : Transition) :
    (s.push t).1.max_priority = s.max_priority := rfl

@[simp] theorem push_state_next_idx (s : PER_IS_ReplayBuffer) (t : Transition) :
    (s.push t).1.next_idx = (s.next_idx + 1) % s.capacity := rfl

@[simp] theorem push_state_size (s : PER_IS_ReplayBuffer) (t : Transition) :
    (s.push t).1.size = min s.capacity (s.size + 1) := rfl

@[simp] theorem push_state_data (s : PER_IS_ReplayBuffer) (t : Transition) :
    (s.push t).1.data = Function.update s.data s.next_idx t := rfl

@[simp] theorem push_returns_none (s : PER_IS_ReplayBuffer) (t : Transition) :
    (s.push t).2 = none := rfl

/-! ### The segment tree invariant survives every mutation (claim C1) -/

/-- Writing one cell at or beyond the leaf row and walking upward restores
the parent-children equation at every internal node. -/
theorem setTreeLoop_inv_preserved {α : Type} (comb : α → α → α) (f : ℕ → α)
    (cap l : ℕ) (v : α) (hl : cap ≤ l)
    (hinv : ∀ n, 1 ≤ n → n < cap → f n = comb (f (2 * n)) (f (2 * n + 1))) :
    ∀ n, 1 ≤ n → n < cap →
      setTreeLoop comb (Function.update f l v) l n =
        comb (setTreeLoop comb (Function.update f l v) l (2 * n))
          (setTreeLoop comb (Function.update f l v) l (2 * n + 1)) := by
  intro n h1 hn
  by_cases ha : ∃ k, 1 ≤ k ∧ l / 2 ^ k = n
  · exact setTreeLoop_anc comb l _ n h1 ha
  · push_neg at ha
    have hdd : ∀ k, l / 2 ^ k / 2 = l / 2 ^ (k + 1) := by
      intro k; rw [Nat.div_div_eq_div_mul, ← pow_succ]
    have h2n : ∀ k, 1 ≤ k → l / 2 ^ k ≠ 2 * n := by
      intro k hk he
      exact ha (k + 1) (by omega) (by rw [← hdd k, he]; omega)
    have h2n1 : ∀ k, 1 ≤ k → l / 2 ^ k ≠ 2 * n + 1 := by
      intro k hk he
      exact ha (k + 1) (by omega) (by rw [← hdd k, he]; omega)
    have hl2 : l / 2 ^ 1 = l / 2 := by norm_num
    have hne : n ≠ l := by omega
    have hne2 : 2 * n ≠ l := by
      intro he
      exact ha 1 le_rfl (by rw [hl2, ← he]; omega)
    have hne21 : 2 * n + 1 ≠ l := by
      intro he
      exact ha 1 le_rfl (by rw [hl2, ← he]; omega)
    rw [setTreeLoop_untouched comb l _ n ha,
        setTreeLoop_untouched comb l _ (2 * n) h2n,
        setTreeLoop_untouched comb l _ (2 * n + 1) h2n1,
        Function.update_noteq hne, Function.update_noteq hne2,
        Function.update_noteq hne21]
    exact hinv n h1 hn

theorem sumTreeInvariant_set_priority_sum (s : PER_IS_ReplayBuffer) (i : ℕ) (p : ℝ)
    (h : sumTreeInvariant s) : sumTreeInvariant (s.set_priority_sum i p) := by
  intro n h1 hn
  rw [set_priority_sum_capacity] at hn
  rw [set_priority_sum_priority_sum]
  exact setTreeLoop_inv_preserved _ _ _ _ _ (Nat.le_add_left _ _) h n h1 hn

theorem minTreeInvariant_set_priority_min (s : PER_IS_ReplayBuffer) (i : ℕ) (p : ℝ)
    (h : minTreeInvariant s) : minTreeInvariant (s.set_priority_min i p) := by
  intro n h1 hn
  rw [set_priority_min_capacity] at hn
  rw [set_priority_min_priority_min]
  exact setTreeLoop_inv_preserved _ _ _ _ _ (Nat.le_add_left _ _) h n h1 hn

theorem sumTreeInvariant_set_priority_min (s : PER_IS_ReplayBuffer) (i : ℕ) (p : ℝ)
    (h : sumTreeInvariant s) : sumTreeInvariant (s.set_priority_min i p) :=
  fun n h1 hn => h n h1 hn

theorem minTreeInvariant_set_priority_sum (s : PER_IS_ReplayBuffer) (i : ℕ) (p : ℝ)
    (h : minTreeInvariant s) : minTreeInvariant (s.set_priority_sum i p) :=
  fun n h1 hn => h n h1 hn

theorem treeInvariant_push (s : PER_IS_ReplayBuffer) (t : Transition)
    (hs : sumTreeInvariant s) (hm : minTreeInvariant s) :
    sumTreeInvariant (s.push t).1 ∧ minTreeInvariant (s.push t).1 := by
  constructor
  · exact sumTreeInvariant_set_priority_sum _ _ _
      (sumTreeInvariant_set_priority_min _ _ _ (fun n h1 hn => hs n h1 hn))
  · exact minTreeInvariant_set_priority_sum _ _ _
      (minTreeInvariant_set_priority_min _ _ _ (fun n h1 hn => hm n h1 hn))

theorem update_priorities_nil (s : PER_IS_ReplayBuffer) (ps : List ℝ) :
    s.update_priorities [] ps = s := rfl

theorem update_priorities_nil_right (s : PER_IS_ReplayBuffer) (ix : List ℕ) :
    s.update_priorities ix [] = s := by
  unfold PER_IS_ReplayBuffer.update_priorities
  rw [List.zip_nil_right]
  rfl

theorem update_priorities_cons (s : PER_IS_ReplayBuffer) (i : ℕ) (p : ℝ)
    (ix : List ℕ) (ps : List ℝ) :
    s.update_priorities (i :: ix) (p :: ps) =
      ((({ s with max_priority := max s.max_priority p
          : PER_IS_ReplayBuffer }).set_priority_min i (p ^ s.alpha)).set_priority_sum
            i (p ^ s.alpha)).update_priorities ix ps := rfl

theorem treeInvariant_update_priorities (ix : List ℕ) :
    ∀ (ps : List ℝ) (s : PER_IS_ReplayBuffer),
      sumTreeInvariant s → minTreeInvariant s →
      sumTreeInvariant (s.update_priorities ix ps) ∧
        minTreeInvariant (s.update_priorities ix ps) := by
  induction ix with
  | nil => intro ps s hs hm; exact ⟨hs, hm⟩
  | cons i ix ih =>
    intro ps s hs hm
    cases ps with
    | nil => rw [update_priorities_nil_right]; exact ⟨hs, hm⟩
    | cons p ps =>
      rw [update_priorities_cons]
      exact ih ps _
        (sumTreeInvariant_set_priority_sum _ _ _
          (sumTreeInvariant_set_priority_min _ _ _ (fun n h1 hn => hs n h1 hn)))
        (minTreeInvariant_set_priority_sum _ _ _
          (minTreeInvariant_set_priority_min _ _ _ (fun n h1 hn => hm n h1 hn)))

theorem sample_state_eq (s : PER_IS_ReplayBuffer) (n : ℕ) (b : ℝ) (r : ℕ → ℝ) :
    (s.sample n b r).1 = s := rfl

theorem treeInvariant_applyOp (s : PER_IS_ReplayBuffer) (op : BufferOp)
    (hs : sumTreeInvariant s) (hm : minTreeInvariant s) :
    sumTreeInvariant (applyOp s op) ∧ minTreeInvariant (applyOp s op) := by
  cases op with
  | pushOp t => exact treeInvariant_push s t hs hm
  | updateOp ix ps => exact treeInvariant_update_priorities ix ps s hs hm
  | sampleOp n b r => exact ⟨hs, hm⟩

theorem runOps_cons (s : PER_IS_ReplayBuffer) (op : BufferOp) (ops : List BufferOp) :
    runOps s (op :: ops) = runOps (applyOp s op) ops := rfl

theorem treeInvariant_runOps (ops : List BufferOp) :
    ∀ s : PER_IS_ReplayBuffer, sumTreeInvariant s → minTreeInvariant s →
      sumTreeInvariant (runOps s ops) ∧ minTreeInvariant (runOps s ops) := by
  induction ops with
  | nil => intro s hs hm; exact ⟨hs, hm⟩
  | cons op ops ih =>
    intro s hs hm
    rw [runOps_cons]
    obtain ⟨hs', hm'⟩ := treeInvariant_applyOp s op hs hm
    exact ih _ hs' hm'

theorem sumTreeInvariant_init (capacity : ℕ) (alpha : ℝ) (state_dim : ℕ) :
    sumTreeInvariant (PER_IS_ReplayBuffer.init capacity alpha state_dim) := by
  intro n h1 hn
  simp [PER_IS_ReplayBuffer.init]

theorem minTreeInvariant_init (capacity : ℕ) (alpha : ℝ) (state_dim : ℕ) :
    minTreeInvariant (PER_IS_ReplayBuffer.init capacity alpha state_dim) := by
  intro n h1 hn
  simp [PER_IS_ReplayBuffer.init]

/-- C1: for every sequence of push and update_priorities calls on a
PER_IS_ReplayBuffer (update_priorities called only with in-range indices and
non-negative priorities), after each call every internal node index n in
[1, capacity) satisfies priority_sum[n] == priority_sum[2*n] +
priority_sum[2*n+1] and priority_min[n] == min(priority_min[2*n],
priority_min[2*n+1]).  Quantifying over all valid call sequences covers the
state after each individual call. -/
theorem tree_invariant_after_ops (capacity : ℕ) (alpha : ℝ) (state_dim : ℕ)
    (ops : List BufferOp) (hops : ValidOps capacity ops) :
    sumTreeInvariant (runOps (PER_IS_ReplayBuffer.init capacity alpha state_dim) ops) ∧
      minTreeInvariant (runOps (PER_IS_ReplayBuffer.init capacity alpha state_dim) ops) :=
  treeInvariant_runOps ops _ (sumTreeInvariant_init capacity alpha state_dim)
    (minTreeInvariant_init capacity alpha state_dim)

/-- A concrete transition used by witnesses and counterexamples. -/
def T0 : Transition :=
  { obs := [0, 0, 0], action := 0, reward := 0, next_obs := [0, 0, 0], done := false }

theorem tree_invariant_after_ops_witness :
    sumTreeInvariant (runOps (PER_IS_ReplayBuffer.init 2 1 3)
        [BufferOp.pushOp T0, BufferOp.updateOp [0] [2]]) ∧
      minTreeInvariant (runOps (PER_IS_ReplayBuffer.init 2 1 3)
        [BufferOp.pushOp T0, BufferOp.updateOp [0] [2]]) := by
  apply tree_invariant_after_ops 2 1 3
  intro op hop
  rcases List.mem_cons.mp hop with rfl | hop
  · trivial
  rcases List.mem_cons.mp hop with rfl | hop
  · refine ⟨?_, ?_⟩
    · intro i hi
      rcases List.mem_singleton.mp hi with rfl
      omega
    · intro p hp
      rcases List.mem_singleton.mp hp with rfl
      norm_num
  · cases hop

/-! ### Safety of find_prefix_sum_idx (claim C10) -/

theorem findLoop_of_ge (s : PER_IS_ReplayBuffer) (fuel idx : ℕ) (p : ℝ)
    (h : s.capacity ≤ idx) : findLoop s fuel idx p = idx := by
  cases fuel with
  | zero => rfl
  | succ fuel => rw [findLoop, if_neg (by omega)]

theorem findLoop_ge (s : PER_IS_ReplayBuffer) :
    ∀ (fuel idx : ℕ) (p : ℝ), s.capacity ≤ 2 ^ fuel * idx → 1 ≤ idx →
      s.capacity ≤ findLoop s fuel idx p := by
  intro fuel
  induction fuel with
  | zero =>
    intro idx p h h1
    rw [findLoop]
    simpa using h
  | succ fuel ih =>
    intro idx p h h1
    have hpow : 2 ^ (fuel + 1) * idx = 2 ^ fuel * (2 * idx) := by ring
    rw [hpow] at h
    rw [findLoop]
    split
    · split
      · exact ih (2 * idx) p h (by omega)
      · refine ih (2 * idx + 1) _ ?_ (by omega)
        have : 2 ^ fuel * (2 * idx) ≤ 2 ^ fuel * (2 * idx + 1) :=
          Nat.mul_le_mul_left _ (by omega)
        omega
    · omega

theorem findLoop_lt (s : PER_IS_ReplayBuffer) :
    ∀ (fuel idx : ℕ) (p : ℝ), idx < 2 * s.capacity →
      findLoop s fuel idx p < 2 * s.capacity := by
  intro fuel
  induction fuel with
  | zero => intro idx p h; rw [findLoop]; exact h
  | succ fuel ih =>
    intro idx p h
    rw [findLoop]
    split
    · rename_i hlt
      split
      · exact ih (2 * idx) p (by omega)
      · exact ih (2 * idx + 1) _ (by omega)
    · exact h

theorem findLoop_stable (s : PER_IS_ReplayBuffer) :
    ∀ (fuel extra idx : ℕ) (p : ℝ), s.capacity ≤ 2 ^ fuel * idx →
      findLoop s (fuel + extra) idx p = findLoop s fuel idx p := by
  intro fuel
  induction fuel with
  | zero =>
    intro extra idx p h
    rw [Nat.zero_add, findLoop_of_ge s extra idx p (by simpa using h)]
    rfl
  | succ fuel ih =>
    intro extra idx p h
    have hpow : 2 ^ (fuel + 1) * idx = 2 ^ fuel * (2 * idx) := by ring
    rw [hpow] at h
    have hstep : fuel + 1 + extra = (fuel + extra) + 1 := by omega
    rw [hstep, findLoop, findLoop]
    split
    · split
      · exact ih extra (2 * idx) p h
      · refine ih extra (2 * idx + 1) _ ?_
        have : 2 ^ fuel * (2 * idx) ≤ 2 ^ fuel * (2 * idx + 1) :=
          Nat.mul_le_mul_left _ (by omega)
        omega
    · rfl

theorem findLoopReads_bounds (s : PER_IS_ReplayBuffer) :
    ∀ (fuel idx : ℕ) (p : ℝ), 1 ≤ idx →
      ∀ r ∈ findLoopReads s fuel idx p, 2 ≤ r ∧ r < 2 * s.capacity := by
  intro fuel
  induction fuel with
  | zero => intro idx p h1 r hr; simp [findLoopReads] at hr
  | succ fuel ih =>
    intro idx p h1 r hr
    rw [findLoopReads] at hr
    by_cases hlt : idx < s.capacity
    · rw [if_pos hlt] at hr
      rcases List.mem_cons.mp hr with rfl | hr
      · omega
      · split at hr
        · exact ih (2 * idx) p (by omega) r hr
        · exact ih (2 * idx + 1) _ (by omega) r hr
    · rw [if_neg hlt] at hr
      cases hr

/-- C10: find_prefix_sum_idx terminates and returns an index in
[0, capacity) for every real argument (negative arguments and arguments at
or beyond the total included) and every positive capacity, and every
priority_sum cell the descent reads lies in [2, 2*capacity).  Termination of
the source's while loop is rendered by fuel independence: beyond capacity
steps the loop value never changes.  The lower bound 0 of the returned index
holds in ℕ by construction. -/
theorem find_prefix_sum_idx_safe (s : PER_IS_ReplayBuffer) (p : ℝ)
    (h : 1 ≤ s.capacity) :
    s.find_prefix_sum_idx p < s.capacity ∧
      (∀ extra, findLoop s (s.capacity + extra) 1 p = findLoop s s.capacity 1 p) ∧
      (∀ r ∈ findLoopReads s s.capacity 1 p, 2 ≤ r ∧ r < 2 * s.capacity) := by
  have hcap : s.capacity ≤ 2 ^ s.capacity * 1 := by
    have := Nat.lt_pow_self (by omega : 1 < 2) s.capacity
    omega
  refine ⟨?_, fun extra => findLoop_stable s s.capacity extra 1 p hcap,
    findLoopReads_bounds s s.capacity 1 p le_rfl⟩
  have hge : s.capacity ≤ findLoop s s.capacity 1 p :=
    findLoop_ge s s.capacity 1 p hcap le_rfl
  have hlt : findLoop s s.capacity 1 p < 2 * s.capacity :=
    findLoop_lt s s.capacity 1 p (by omega)
  unfold PER_IS_ReplayBuffer.find_prefix_sum_idx
  omega

theorem find_prefix_sum_idx_safe_witness :
    (PER_IS_ReplayBuffer.init 1 1 3).find_prefix_sum_idx (-1) <
        (PER_IS_ReplayBuffer.init 1 1 3).capacity ∧
      (∀ extra, findLoop (PER_IS_ReplayBuffer.init 1 1 3)
          ((PER_IS_ReplayBuffer.init 1 1 3).capacity + extra) 1 (-1) =
        findLoop (PER_IS_ReplayBuffer.init 1 1 3)
          (PER_IS_ReplayBuffer.init 1 1 3).capacity 1 (-1)) ∧
      (∀ r ∈ findLoopReads (PER_IS_ReplayBuffer.init 1 1 3)
          (PER_IS_ReplayBuffer.init 1 1 3).capacity 1 (-1),
        2 ≤ r ∧ r < 2 * (PER_IS_ReplayBuffer.init 1 1 3).capacity) :=
  find_prefix_sum_idx_safe (PER_IS_ReplayBuffer.init 1 1 3) (-1) (by norm_num [PER_IS_ReplayBuffer.init])

/-! ### push bookkeeping (claim C4) and sample purity (claim C9) -/

/-- C4, counterexample: as stated the claim is false, because push has no
return statement in the source, so it returns None rather than the written
slot index.  On a fresh buffer the written slot is next_idx = 0, yet the
value of the call is none, not some 0. -/
theorem push_returns_index_counterexample :
    ¬ (((PER_IS_ReplayBuffer.init 4 1 3).push T0).2 =
        some (PER_IS_ReplayBuffer.init 4 1 3).next_idx) := by
  simp

/-- C4, amended: for every buffer state with positive capacity and every
transition, push writes the transition at slot next_idx (leaving all other
slots unchanged), advances next_idx to (next_idx + 1) mod capacity, sets
size to min(capacity, size + 1), and returns None (not the slot index:
the method has no return statement). -/
theorem push_semantics (s : PER_IS_ReplayBuffer) (t : Transition)
    (hcap : 0 < s.capacity) :
    (s.push t).1.data s.next_idx = t ∧
      (∀ j, j ≠ s.next_idx → (s.push t).1.data j = s.data j) ∧
      (s.push t).1.next_idx = (s.next_idx + 1) % s.capacity ∧
      (s.push t).1.size = min s.capacity (s.size + 1) ∧
      (s.push t).2 = none := by
  refine ⟨?_, ?_, rfl, rfl, rfl⟩
  · rw [push_state_data, Function.update_same]
  · intro j hj
    rw [push_state_data, Function.update_noteq hj]

theorem push_semantics_witness :
    ((PER_IS_ReplayBuffer.init 4 1 3).push T0).1.data
        (PER_IS_ReplayBuffer.init 4 1 3).next_idx = T0 ∧
      (∀ j, j ≠ (PER_IS_ReplayBuffer.init 4 1 3).next_idx →
        ((PER_IS_ReplayBuffer.init 4 1 3).push T0).1.data j =
          (PER_IS_ReplayBuffer.init 4 1 3).data j) ∧
      ((PER_IS_ReplayBuffer.init 4 1 3).push T0).1.next_idx =
        ((PER_IS_ReplayBuffer.init 4 1 3).next_idx + 1) %
          (PER_IS_ReplayBuffer.init 4 1 3).capacity ∧
      ((PER_IS_ReplayBuffer.init 4 1 3).push T0).1.size =
        min (PER_IS_ReplayBuffer.init 4 1 3).capacity
          ((PER_IS_ReplayBuffer.init 4 1 3).size + 1) ∧
      ((PER_IS_ReplayBuffer.init 4 1 3).push T0).2 = none :=
  push_semantics (PER_IS_ReplayBuffer.init 4 1 3) T0
    (by norm_num [PER_IS_ReplayBuffer.init])

/-- C9: sample never mutates the buffer: the state after the call equals the
state before it, hence next_idx, size, max_priority, both tree arrays and
all five stored data columns are unchanged.  In this embedding sample
returns the post-call state as its first component, and the source method
assigns to no attribute of self. -/
theorem sample_does_not_mutate (s : PER_IS_ReplayBuffer) (batch_size : ℕ)
    (beta : ℝ) (rand : ℕ → ℝ) :
    (s.sample batch_size beta rand).1 = s := rfl

/-! ### The max_priority ratchet (claim C7) -/

/-- The call sequences claim C7 ranges over: update_priorities is only
handed non-negative priorities. -/
def NonnegOps (ops : List BufferOp) : Prop :=
  ∀ op ∈ ops, match op with
    | .updateOp _ ps => ∀ p ∈ ps, 0 ≤ p
    | _ => True

theorem update_priorities_max_priority_ge (ix : List ℕ) :
    ∀ (ps : List ℝ) (s : PER_IS_ReplayBuffer),
      s.max_priority ≤ (s.update_priorities ix ps).max_priority := by
  induction ix with
  | nil => intro ps s; exact le_rfl
  | cons i ix ih =>
    intro ps s
    cases ps with
    | nil => rw [update_priorities_nil_right]
    | cons p ps =>
      rw [update_priorities_cons]
      have h2 := ih ps
        ((({ s with max_priority := max s.max_priority p }
          : PER_IS_ReplayBuffer).set_priority_min i (p ^ s.alpha)).set_priority_sum
            i (p ^ s.alpha))
      simp only [set_priority_sum_max_priority, set_priority_min_max_priority] at h2
      exact le_trans (le_max_left s.max_priority p) h2

theorem applyOp_max_priority_ge (s : PER_IS_ReplayBuffer) (op : BufferOp) :
    s.max_priority ≤ (applyOp s op).max_priority := by
  cases op with
  | pushOp t => exact le_of_eq (push_state_max_priority s t).symm
  | updateOp ix ps => exact update_priorities_max_priority_ge ix ps s
  | sampleOp n b r => exact le_rfl

theorem runOps_max_priority_ge (ops : List BufferOp) :
    ∀ s : PER_IS_ReplayBuffer, s.max_priority ≤ (runOps s ops).max_priority := by
  induction ops with
  | nil => intro s; exact le_rfl
  | cons op ops ih =>
    intro s
    rw [runOps_cons]
    exact le_trans (applyOp_max_priority_ge s op) (ih _)

/-- C7: max_priority starts at 1.0 and is monotonically non-decreasing over
the buffer's whole life: extending any call sequence of push, sample and
update_priorities calls (the latter with non-negative priorities) by
further calls never decreases it, even when the slot holding the transition
that set the current maximum is later overwritten. -/
theorem max_priority_ratchet (capacity : ℕ) (alpha : ℝ) (state_dim : ℕ)
    (ops extra : List BufferOp) (hops : NonnegOps (ops ++ extra)) :
    (PER_IS_ReplayBuffer.init capacity alpha state_dim).max_priority = 1 ∧
      (runOps (PER_IS_ReplayBuffer.init capacity alpha state_dim) ops).max_priority ≤
        (runOps (PER_IS_ReplayBuffer.init capacity alpha state_dim)
          (ops ++ extra)).max_priority := by
  refine ⟨rfl, ?_⟩
  unfold runOps
  rw [List.foldl_append]
  exact runOps_max_priority_ge extra _

theorem max_priority_ratchet_witness :
    (PER_IS_ReplayBuffer.init 4 1 3).max_priority = 1 ∧
      (runOps (PER_IS_ReplayBuffer.init 4 1 3) [BufferOp.pushOp T0]).max_priority ≤
        (runOps (PER_IS_ReplayBuffer.init 4 1 3)
          ([BufferOp.pushOp T0] ++ [BufferOp.updateOp [0] [(1 : ℝ) / 2]])).max_priority := by
  apply max_priority_ratchet 4 1 3
  intro op hop
  rcases List.mem_cons.mp hop with rfl | hop
  · trivial
  rcases List.mem_cons.mp hop with rfl | hop
  · intro p hp
    rcases List.mem_singleton.mp hp with rfl
    norm_num
  · cases hop

/-! ### Leaf cells under the two set_priority methods -/

theorem div_pow_le_div_two (l k : ℕ) (hk : 1 ≤ k) : l / 2 ^ k ≤ l / 2 :=
  Nat.div_le_div_left
    (by calc 2 = 2 ^ 1 := (pow_one 2).symm
        _ ≤ 2 ^ k := Nat.pow_le_pow_right (by omega) hk)
    (by omega)

theorem setTreeLoop_start {α : Type} (comb : α → α → α) (f : ℕ → α) (l : ℕ) :
    setTreeLoop comb f l l = f l := by
  by_cases h2 : 2 ≤ l
  · refine setTreeLoop_untouched comb l f l ?_
    intro k hk he
    have h1 := div_pow_le_div_two l k hk
    have h3 : l / 2 < l := Nat.div_lt_self (by omega) (by omega)
    omega
  · rw [setTreeLoop, if_neg h2]

theorem setTreeLoop_leaf_other {α : Type} (comb : α → α → α) (f : ℕ → α)
    (cap l q : ℕ) (hl : l < 2 * cap) (hq : cap ≤ q) (hne : l ≠ q) :
    setTreeLoop comb f l q = f q := by
  refine setTreeLoop_untouched comb l f q ?_
  intro k hk he
  have h1 := div_pow_le_div_two l k hk
  have h3 : l / 2 < cap := by omega
  omega

theorem set_priority_sum_leaf_self (s : PER_IS_ReplayBuffer) (i : ℕ) (p : ℝ) :
    (s.set_priority_sum i p).priority_sum (i + s.capacity) = p := by
  rw [set_priority_sum_priority_sum, setTreeLoop_start, Function.update_same]

theorem set_priority_min_leaf_self (s : PER_IS_ReplayBuffer) (i : ℕ) (p : ℝ) :
    (s.set_priority_min i p).priority_min (i + s.capacity) = (p : WithTop ℝ) := by
  rw [set_priority_min_priority_min, setTreeLoop_start, Function.update_same]

theorem set_priority_sum_leaf_other (s : PER_IS_ReplayBuffer) (i : ℕ) (p : ℝ)
    (j : ℕ) (hi : i < s.capacity) (hj : j ≠ i) :
    (s.set_priority_sum i p).priority_sum (j + s.capacity) =
      s.priority_sum (j + s.capacity) := by
  rw [set_priority_sum_priority_sum,
    setTreeLoop_leaf_other _ _ s.capacity _ _ (by omega) (by omega) (by omega),
    Function.update_noteq (by omega)]

theorem set_priority_min_leaf_other (s : PER_IS_ReplayBuffer) (i : ℕ) (p : ℝ)
    (j : ℕ) (hi : i < s.capacity) (hj : j ≠ i) :
    (s.set_priority_min i p).priority_min (j + s.capacity) =
      s.priority_min (j + s.capacity) := by
  rw [set_priority_min_priority_min,
    setTreeLoop_leaf_other _ _ s.capacity _ _ (by omega) (by omega) (by omega),
    Function.update_noteq (by omega)]


/-- The body of the update_priorities fold for one (index, priority) pair;
update_priorities_cons_step identifies it with the source's loop body. -/
noncomputable def updateStep (s : PER_IS_ReplayBuffer) (i : ℕ) (p : ℝ) :
    PER_IS_ReplayBuffer :=
  (({ s with max_priority := max s.max_priority p }
    : PER_IS_ReplayBuffer).set_priority_min i (p ^ s.alpha)).set_priority_sum
      i (p ^ s.alpha)

theorem update_priorities_cons_step (s : PER_IS_ReplayBuffer) (i : ℕ) (p : ℝ)
    (ix : List ℕ) (ps : List ℝ) :
    s.update_priorities (i :: ix) (p :: ps) =
      (updateStep s i p).update_priorities ix ps := rfl

@[simp] theorem updateStep_capacity (s : PER_IS_ReplayBuffer) (i : ℕ) (p : ℝ) :
    (updateStep s i p).capacity = s.capacity := rfl

@[simp] theorem updateStep_alpha (s : PER_IS_ReplayBuffer) (i : ℕ) (p : ℝ) :
    (updateStep s i p).alpha = s.alpha := rfl

@[simp] theorem updateStep_max_priority (s : PER_IS_ReplayBuffer) (i : ℕ) (p : ℝ) :
    (updateStep s i p).max_priority = max s.max_priority p := rfl

@[simp] theorem updateStep_size (s : PER_IS_ReplayBuffer) (i : ℕ) (p : ℝ) :
    (updateStep s i p).size = s.size := rfl

@[simp] theorem updateStep_next_idx (s : PER_IS_ReplayBuffer) (i : ℕ) (p : ℝ) :
    (updateStep s i p).next_idx = s.next_idx := rfl

@[simp] theorem updateStep_data (s : PER_IS_ReplayBuffer) (i : ℕ) (p : ℝ) :
    (updateStep s i p).data = s.data := rfl

theorem updateStep_leaf_sum_self (s : PER_IS_ReplayBuffer) (i : ℕ) (p : ℝ) :
    (updateStep s i p).priority_sum (i + s.capacity) = p ^ s.alpha :=
  set_priority_sum_leaf_self
    (({ s with max_priority := max s.max_priority p }
      : PER_IS_ReplayBuffer).set_priority_min i (p ^ s.alpha)) i (p ^ s.alpha)

theorem updateStep_leaf_min_self (s : PER_IS_ReplayBuffer) (i : ℕ) (p : ℝ) :
    (updateStep s i p).priority_min (i + s.capacity) =
      ((p ^ s.alpha : ℝ) : WithTop ℝ) :=
  set_priority_min_leaf_self
    ({ s with max_priority := max s.max_priority p } : PER_IS_ReplayBuffer)
    i (p ^ s.alpha)

theorem updateStep_leaf_sum_other (s : PER_IS_ReplayBuffer) (i : ℕ) (p : ℝ)
    (j : ℕ) (hi : i < s.capacity) (hj : j ≠ i) :
    (updateStep s i p).priority_sum (j + s.capacity) =
      s.priority_sum (j + s.capacity) :=
  set_priority_sum_leaf_other
    (({ s with max_priority := max s.max_priority p }
      : PER_IS_ReplayBuffer).set_priority_min i (p ^ s.alpha)) i (p ^ s.alpha) j hi hj

theorem updateStep_leaf_min_other (s : PER_IS_ReplayBuffer) (i : ℕ) (p : ℝ)
    (j : ℕ) (hi : i < s.capacity) (hj : j ≠ i) :
    (updateStep s i p).priority_min (j + s.capacity) =
      s.priority_min (j + s.capacity) :=
  set_priority_min_leaf_other
    ({ s with max_priority := max s.max_priority p } : PER_IS_ReplayBuffer)
    i (p ^ s.alpha) j hi hj

theorem push_leaf_sum (s : PER_IS_ReplayBuffer) (t : Transition) :
    (s.push t).1.priority_sum (s.next_idx + s.capacity) =
      s.max_priority ^ s.alpha :=
  set_priority_sum_leaf_self
    (({ s with
        data := Function.update s.data s.next_idx t,
        next_idx := (s.next_idx + 1) % s.capacity,
        size := min s.capacity (s.size + 1) }
      : PER_IS_ReplayBuffer).set_priority_min s.next_idx (s.max_priority ^ s.alpha))
    s.next_idx (s.max_priority ^ s.alpha)

theorem push_leaf_min (s : PER_IS_ReplayBuffer) (t : Transition) :
    (s.push t).1.priority_min (s.next_idx + s.capacity) =
      ((s.max_priority ^ s.alpha : ℝ) : WithTop ℝ) :=
  set_priority_min_leaf_self
    ({ s with
        data := Function.update s.data s.next_idx t,
        next_idx := (s.next_idx + 1) % s.capacity,
        size := min s.capacity (s.size + 1) }
      : PER_IS_ReplayBuffer)
    s.next_idx (s.max_priority ^ s.alpha)

theorem push_leaf_sum_other (s : PER_IS_ReplayBuffer) (t : Transition) (j : ℕ)
    (hi : s.next_idx < s.capacity) (hj : j ≠ s.next_idx) :
    (s.push t).1.priority_sum (j + s.capacity) = s.priority_sum (j + s.capacity) :=
  set_priority_sum_leaf_other
    (({ s with
        data := Function.update s.data s.next_idx t,
        next_idx := (s.next_idx + 1) % s.capacity,
        size := min s.capacity (s.size + 1) }
      : PER_IS_ReplayBuffer).set_priority_min s.next_idx (s.max_priority ^ s.alpha))
    s.next_idx (s.max_priority ^ s.alpha) j hi hj

theorem push_leaf_min_other (s : PER_IS_ReplayBuffer) (t : Transition) (j : ℕ)
    (hi : s.next_idx < s.capacity) (hj : j ≠ s.next_idx) :
    (s.push t).1.priority_min (j + s.capacity) = s.priority_min (j + s.capacity) :=
  set_priority_min_leaf_other
    ({ s with
        data := Function.update s.data s.next_idx t,
        next_idx := (s.next_idx + 1) % s.capacity,
        size := min s.capacity (s.size + 1) }
      : PER_IS_ReplayBuffer)
    s.next_idx (s.max_priority ^ s.alpha) j hi hj

theorem update_priorities_leaf_untouched (ix : List ℕ) :
    ∀ (ps : List ℝ) (s : PER_IS_ReplayBuffer) (j : ℕ),
      (∀ i ∈ ix, i < s.capacity) → j ∉ ix →
      (s.update_priorities ix ps).priority_sum (j + s.capacity) =
        s.priority_sum (j + s.capacity) := by
  induction ix with
  | nil => intro ps s j _ _; rfl
  | cons i ix ih =>
    intro ps s j hrange hj
    cases ps with
    | nil => rw [update_priorities_nil_right]
    | cons p ps =>
      rw [update_priorities_cons_step]
      have h1 := ih ps (updateStep s i p) j
        (fun i' hi' => hrange i' (List.mem_cons_of_mem i hi'))
        (fun h => hj (List.mem_cons_of_mem i h))
      rw [updateStep_capacity] at h1
      rw [h1, updateStep_leaf_sum_other s i p j (hrange i (List.mem_cons_self i ix))
        (fun h => hj (h ▸ List.mem_cons_self i ix))]

theorem update_priorities_leaf_one (ix : List ℕ) :
    ∀ (ps : List ℝ) (s : PER_IS_ReplayBuffer) (j : ℕ),
      s.alpha = 0 → (∀ i ∈ ix, i < s.capacity) → j ∈ ix →
      ix.length = ps.length →
      (s.update_priorities ix ps).priority_sum (j + s.capacity) = 1 := by
  induction ix with
  | nil => intro ps s j _ _ hj _; cases hj
  | cons i ix ih =>
    intro ps s j ha hrange hj hlen
    cases ps with
    | nil => simp at hlen
    | cons p ps =>
      rw [update_priorities_cons_step]
      by_cases hjx : j ∈ ix
      · exact ih ps (updateStep s i p) j ha
          (fun i' hi' => hrange i' (List.mem_cons_of_mem i hi'))
          hjx (by simpa using hlen)
      · have hji : j = i := by
          rcases List.mem_cons.mp hj with h | h
          · exact h
          · exact absurd h hjx
        subst hji
        have h1 := update_priorities_leaf_untouched ix ps (updateStep s j p) j
          (fun i' hi' => hrange i' (List.mem_cons_of_mem j hi')) hjx
        rw [updateStep_capacity] at h1
        rw [h1, updateStep_leaf_sum_self, ha, Real.rpow_zero]

/-- C8: with beta = 0, every weight returned by sample equals 1 on every
non-empty buffer state; and with alpha = 0, the leaf value written by push
equals 1 and every leaf update_priorities writes (in-range indices,
non-negative priorities) ends at value 1, so sampling mass is uniform over
occupied slots.  Both come out of the same rpow arithmetic with no
special-case branch. -/
theorem alpha_beta_zero_collapse :
    (∀ (s : PER_IS_ReplayBuffer) (batch_size : ℕ) (rand : ℕ → ℝ),
      1 ≤ s.size → ∀ w ∈ (s.sample batch_size 0 rand).2.weights, w = 1) ∧
    (∀ (s : PER_IS_ReplayBuffer) (t : Transition), s.alpha = 0 →
      (s.push t).1.priority_sum (s.next_idx + s.capacity) = 1) ∧
    (∀ (s : PER_IS_ReplayBuffer) (ix : List ℕ) (ps : List ℝ) (j : ℕ),
      s.alpha = 0 → (∀ i ∈ ix, i < s.capacity) → (∀ p ∈ ps, 0 ≤ p) →
      j ∈ ix → ix.length = ps.length →
      (s.update_priorities ix ps).priority_sum (j + s.capacity) = 1) := by
  refine ⟨?_, ?_, ?_⟩
  · intro s batch_size rand hsize w hw
    simp only [PER_IS_ReplayBuffer.sample] at hw
    rcases List.mem_map.mp hw with ⟨idx, _, rfl⟩
    simp [Real.rpow_zero]
  · intro s t ha
    rw [push_leaf_sum, ha, Real.rpow_zero]
  · intro s ix ps j ha hrange hnn hj hlen
    exact update_priorities_leaf_one ix ps s j ha hrange hj hlen

theorem alpha_beta_zero_collapse_witness :
    (∀ w ∈ ((((PER_IS_ReplayBuffer.init 2 0 3).push T0).1).sample 1 0
        (fun _ => 1 / 2)).2.weights, w = 1) ∧
    ((PER_IS_ReplayBuffer.init 2 0 3).push T0).1.priority_sum
        ((PER_IS_ReplayBuffer.init 2 0 3).next_idx +
          (PER_IS_ReplayBuffer.init 2 0 3).capacity) = 1 ∧
    ((PER_IS_ReplayBuffer.init 2 0 3).update_priorities [0] [1]).priority_sum
        (0 + (PER_IS_ReplayBuffer.init 2 0 3).capacity) = 1 := by
  refine ⟨?_, ?_, ?_⟩
  · refine alpha_beta_zero_collapse.1 (((PER_IS_ReplayBuffer.init 2 0 3).push T0).1)
      1 (fun _ => 1 / 2) ?_
    rw [push_state_size]
    norm_num [PER_IS_ReplayBuffer.init]
  · exact alpha_beta_zero_collapse.2.1 (PER_IS_ReplayBuffer.init 2 0 3) T0 rfl
  · refine alpha_beta_zero_collapse.2.2 (PER_IS_ReplayBuffer.init 2 0 3) [0] [1] 0
      rfl ?_ ?_ (List.mem_singleton.mpr rfl) rfl
    · intro i hi
      rcases List.mem_singleton.mp hi with rfl
      norm_num [PER_IS_ReplayBuffer.init]
    · intro p hp
      rcases List.mem_singleton.mp hp with rfl
      norm_num

/-! ### The ring store under repeated pushes (claim C5) -/

/-- Pushing a list of transitions in order. -/
noncomputable def pushList (s : PER_IS_ReplayBuffer) (ts : List Transition) :
    PER_IS_ReplayBuffer :=
  ts.foldl (fun st t => (st.push t).1) s

theorem pushList_cons (s : PER_IS_ReplayBuffer) (t : Transition) (ts : List Transition) :
    pushList s (t :: ts) = pushList (s.push t).1 ts := rfl

theorem pushList_capacity (ts : List Transition) :
    ∀ s : PER_IS_ReplayBuffer, (pushList s ts).capacity = s.capacity := by
  induction ts with
  | nil => intro s; rfl
  | cons t ts ih => intro s; rw [pushList_cons, ih, push_state_capacity]

theorem pushList_size (ts : List Transition) :
    ∀ s : PER_IS_ReplayBuffer, s.size ≤ s.capacity →
      (pushList s ts).size = min s.capacity (s.size + ts.length) := by
  induction ts with
  | nil => intro s h; simp [pushList]; omega
  | cons t ts ih =>
    intro s h
    rw [pushList_cons, ih _ (by rw [push_state_size, push_state_capacity]; omega)]
    rw [push_state_size, push_state_capacity, List.length_cons]
    omega

theorem pushList_data_untouched (ts : List Transition) :
    ∀ (s : PER_IS_ReplayBuffer) (q : ℕ), s.next_idx < s.capacity →
      (∀ j, j < ts.length → (s.next_idx + j) % s.capacity ≠ q) →
      (pushList s ts).data q = s.data q := by
  induction ts with
  | nil => intro s q _ _; rfl
  | cons t ts ih =>
    intro s q hni hq
    have hcap : 1 ≤ s.capacity := by omega
    have hq0 : s.next_idx ≠ q := by
      have := hq 0 (by simp)
      rwa [Nat.add_zero, Nat.mod_eq_of_lt hni] at this
    rw [pushList_cons]
    rw [ih (s.push t).1 q]
    · rw [push_state_data, Function.update_noteq (Ne.symm hq0)]
    · rw [push_state_next_idx, push_state_capacity]
      exact Nat.mod_lt _ (by omega)
    · intro j hj
      rw [push_state_next_idx, push_state_capacity, Nat.mod_add_mod]
      have := hq (j + 1) (by simpa using Nat.succ_lt_succ hj)
      rwa [show s.next_idx + (j + 1) = s.next_idx + 1 + j by omega] at this

theorem pushList_data_last (ts : List Transition) :
    ∀ (s : PER_IS_ReplayBuffer) (m : ℕ), s.next_idx < s.capacity →
      m < ts.length →
      (∀ m', m < m' → m' < ts.length →
        (s.next_idx + m') % s.capacity ≠ (s.next_idx + m) % s.capacity) →
      (pushList s ts).data ((s.next_idx + m) % s.capacity) = ts.getD m T0 := by
  induction ts with
  | nil => intro s m _ hm _; simp at hm
  | cons t ts ih =>
    intro s m hni hm hfresh
    have hcap : 1 ≤ s.capacity := by omega
    cases m with
    | zero =>
      rw [Nat.add_zero, Nat.mod_eq_of_lt hni, pushList_cons]
      rw [pushList_data_untouched ts (s.push t).1 s.next_idx]
      · rw [push_state_data, Function.update_same]; rfl
      · rw [push_state_next_idx, push_state_capacity]
        exact Nat.mod_lt _ (by omega)
      · intro j hj
        rw [push_state_next_idx, push_state_capacity, Nat.mod_add_mod]
        have := hfresh (j + 1) (by omega) (by simpa using Nat.succ_lt_succ hj)
        simp only [Nat.add_zero, Nat.mod_eq_of_lt hni] at this
        rwa [show s.next_idx + (j + 1) = s.next_idx + 1 + j by omega] at this
    | succ m =>
      rw [pushList_cons]
      have hni' : (s.push t).1.next_idx < (s.push t).1.capacity := by
        rw [push_state_next_idx, push_state_capacity]
        exact Nat.mod_lt _ (by omega)
      have hkey : ∀ b, ((s.push t).1.next_idx + b) % (s.push t).1.capacity =
          (s.next_idx + (b + 1)) % s.capacity := by
        intro b
        rw [push_state_next_idx, push_state_capacity, Nat.mod_add_mod]
        congr 1
        omega
      have hres := ih (s.push t).1 m hni' (by simpa using Nat.lt_of_succ_lt_succ hm)
        (fun m' hmm' hm' => by
          rw [hkey m', hkey m]
          exact hfresh (m' + 1) (by omega) (by simpa using Nat.succ_lt_succ hm'))
      rw [hkey m] at hres
      exact hres

/-- C5: pushing capacity + k transitions (k at least 1) into a fresh buffer
leaves size equal to capacity, is_full true and len equal to capacity, and
the ring store holding exactly the last capacity pushed transitions, each at
slot (push ordinal) mod capacity. -/
theorem ring_overwrite_last_capacity (c k state_dim : ℕ) (alpha : ℝ)
    (ts : List Transition) (hc : 1 ≤ c) (hk : 1 ≤ k) (hlen : ts.length = c + k) :
    (pushList (PER_IS_ReplayBuffer.init c alpha state_dim) ts).size = c ∧
      (pushList (PER_IS_ReplayBuffer.init c alpha state_dim) ts).is_full = true ∧
      (pushList (PER_IS_ReplayBuffer.init c alpha state_dim) ts).len = c ∧
      ∀ m, k ≤ m → m < c + k →
        (pushList (PER_IS_ReplayBuffer.init c alpha state_dim) ts).data (m % c) =
          ts.getD m T0 := by
  have hsize : (pushList (PER_IS_ReplayBuffer.init c alpha state_dim) ts).size = c := by
    rw [pushList_size ts _ (by simp [PER_IS_ReplayBuffer.init])]
    simp only [PER_IS_ReplayBuffer.init]
    rw [hlen]
    omega
  refine ⟨hsize, ?_, ?_, ?_⟩
  · rw [PER_IS_ReplayBuffer.is_full, hsize, pushList_capacity]
    simp [PER_IS_ReplayBuffer.init]
  · rw [PER_IS_ReplayBuffer.len, hsize]
  · intro m hkm hm
    have h := pushList_data_last ts (PER_IS_ReplayBuffer.init c alpha state_dim) m
      (by simpa [PER_IS_ReplayBuffer.init] using hc) (by omega) ?_
    · simpa [PER_IS_ReplayBuffer.init] using h
    · intro m' hmm' hm'
      simp only [PER_IS_ReplayBuffer.init, Nat.zero_add]
      intro he
      have hmod : m' % c = m % c := he
      have hdvd : c ∣ m' - m := (Nat.modEq_iff_dvd' (by omega)).mp (hmod.symm)
      have hle : c ≤ m' - m := Nat.le_of_dvd (by omega) hdvd
      omega

theorem ring_overwrite_last_capacity_witness :
    (pushList (PER_IS_ReplayBuffer.init 2 1 3) [T0, T0, T0]).size = 2 ∧
      (pushList (PER_IS_ReplayBuffer.init 2 1 3) [T0, T0, T0]).is_full = true ∧
      (pushList (PER_IS_ReplayBuffer.init 2 1 3) [T0, T0, T0]).len = 2 ∧
      ∀ m, 1 ≤ m → m < 2 + 1 →
        (pushList (PER_IS_ReplayBuffer.init 2 1 3) [T0, T0, T0]).data (m % 2) =
          [T0, T0, T0].getD m T0 :=
  ring_overwrite_last_capacity 2 1 3 1 [T0, T0, T0] (by norm_num) (by norm_num) (by norm_num)

/-! ### Concrete evaluation helpers for the tree walk and the descent -/

theorem setTreeLoop_eval_two {α : Type} (comb : α → α → α) (f : ℕ → α) :
    setTreeLoop comb f 2 = Function.update f 1 (comb (f 2) (f 3)) := by
  rw [setTreeLoop]
  norm_num
  rw [setTreeLoop]
  norm_num

theorem setTreeLoop_eval_three {α : Type} (comb : α → α → α) (f : ℕ → α) :
    setTreeLoop comb f 3 = Function.update f 1 (comb (f 2) (f 3)) := by
  rw [setTreeLoop]
  norm_num
  rw [setTreeLoop]
  norm_num

theorem setTreeLoop_eval_four {α : Type} (comb : α → α → α) (f : ℕ → α) :
    setTreeLoop comb f 4 =
      Function.update (Function.update f 2 (comb (f 4) (f 5))) 1
        (comb (comb (f 4) (f 5)) (f 3)) := by
  rw [setTreeLoop]
  norm_num
  rw [setTreeLoop]
  norm_num [Function.update_apply]
  rw [setTreeLoop]
  norm_num

theorem setTreeLoop_eval_five {α : Type} (comb : α → α → α) (f : ℕ → α) :
    setTreeLoop comb f 5 =
      Function.update (Function.update f 2 (comb (f 4) (f 5))) 1
        (comb (comb (f 4) (f 5)) (f 3)) := by
  rw [setTreeLoop]
  norm_num
  rw [setTreeLoop]
  norm_num [Function.update_apply]
  rw [setTreeLoop]
  norm_num

theorem setTreeLoop_eval_six {α : Type} (comb : α → α → α) (f : ℕ → α) :
    setTreeLoop comb f 6 =
      Function.update (Function.update f 3 (comb (f 6) (f 7))) 1
        (comb (f 2) (comb (f 6) (f 7))) := by
  rw [setTreeLoop]
  norm_num
  rw [setTreeLoop]
  norm_num [Function.update_apply]
  rw [setTreeLoop]
  norm_num

theorem setTreeLoop_eval_seven {α : Type} (comb : α → α → α) (f : ℕ → α) :
    setTreeLoop comb f 7 =
      Function.update (Function.update f 3 (comb (f 6) (f 7))) 1
        (comb (f 2) (comb (f 6) (f 7))) := by
  rw [setTreeLoop]
  norm_num
  rw [setTreeLoop]
  norm_num [Function.update_apply]
  rw [setTreeLoop]
  norm_num

theorem push_priority_sum (s : PER_IS_ReplayBuffer) (t : Transition) :
    (s.push t).1.priority_sum =
      setTreeLoop (· + ·)
        (Function.update s.priority_sum (s.next_idx + s.capacity)
          (s.max_priority ^ s.alpha))
        (s.next_idx + s.capacity) := rfl

theorem push_priority_min (s : PER_IS_ReplayBuffer) (t : Transition) :
    (s.push t).1.priority_min =
      setTreeLoop min
        (Function.update s.priority_min (s.next_idx + s.capacity)
          ((s.max_priority ^ s.alpha : ℝ) : WithTop ℝ))
        (s.next_idx + s.capacity) := rfl

theorem updateStep_priority_sum (s : PER_IS_ReplayBuffer) (i : ℕ) (p : ℝ) :
    (updateStep s i p).priority_sum =
      setTreeLoop (· + ·)
        (Function.update s.priority_sum (i + s.capacity) (p ^ s.alpha))
        (i + s.capacity) := rfl

theorem updateStep_priority_min (s : PER_IS_ReplayBuffer) (i : ℕ) (p : ℝ) :
    (updateStep s i p).priority_min =
      setTreeLoop min
        (Function.update s.priority_min (i + s.capacity)
          ((p ^ s.alpha : ℝ) : WithTop ℝ))
        (i + s.capacity) := rfl

theorem findLoop_step_left (s : PER_IS_ReplayBuffer) (fuel idx : ℕ) (p : ℝ)
    (h1 : idx < s.capacity) (h2 : s.priority_sum (idx * 2) > p) :
    findLoop s (fuel + 1) idx p = findLoop s fuel (2 * idx) p := by
  rw [findLoop, if_pos h1, if_pos h2]

theorem findLoop_step_right (s : PER_IS_ReplayBuffer) (fuel idx : ℕ) (p : ℝ)
    (h1 : idx < s.capacity) (h2 : ¬ s.priority_sum (idx * 2) > p) :
    findLoop s (fuel + 1) idx p =
      findLoop s fuel (2 * idx + 1) (p - s.priority_sum (idx * 2)) := by
  rw [findLoop, if_pos h1, if_neg h2]

/-- Cumulative sum of the leaf values of ring slots [0, i), the measure the
spec states locate correctness with. -/
noncomputable def leafPrefix (s : PER_IS_ReplayBuffer) (i : ℕ) : ℝ :=
  ∑ j ∈ Finset.range i, s.priority_sum (j + s.capacity)

/-- C2, counterexample: on capacity 3 (not a power of two), after three
pushes of priority 1 each the tree invariant holds and 1/2 lies in
[0, total_sum), yet find_prefix_sum_idx (1/2) returns slot 1, whose
cumulative-prefix interval is [1, 2): the claimed prefix property
cumsum[0,i) <= p < cumsum[0,i] fails at the returned index (slot 0, the leaf
the claim demands, lives in the right subtree of this layout). -/
theorem find_prefix_sum_idx_capacity_three_counterexample :
    sumTreeInvariant (pushList (PER_IS_ReplayBuffer.init 3 1 3) [T0, T0, T0]) ∧
    minTreeInvariant (pushList (PER_IS_ReplayBuffer.init 3 1 3) [T0, T0, T0]) ∧
    (0 : ℝ) ≤ 1 / 2 ∧
    (1 / 2 : ℝ) < (pushList (PER_IS_ReplayBuffer.init 3 1 3) [T0, T0, T0]).total_sum ∧
    (pushList (PER_IS_ReplayBuffer.init 3 1 3) [T0, T0, T0]).find_prefix_sum_idx
      (1 / 2) = 1 ∧
    ¬ (leafPrefix (pushList (PER_IS_ReplayBuffer.init 3 1 3) [T0, T0, T0])
        ((pushList (PER_IS_ReplayBuffer.init 3 1 3) [T0, T0, T0]).find_prefix_sum_idx
          (1 / 2)) ≤ 1 / 2 ∧
      (1 / 2 : ℝ) < leafPrefix (pushList (PER_IS_ReplayBuffer.init 3 1 3) [T0, T0, T0])
        ((pushList (PER_IS_ReplayBuffer.init 3 1 3) [T0, T0, T0]).find_prefix_sum_idx
          (1 / 2) + 1)) := by
  set S0 := PER_IS_ReplayBuffer.init 3 1 3 with hS0
  set S1 := (S0.push T0).1 with hS1
  set S2 := (S1.push T0).1 with hS2
  set S3 := (S2.push T0).1 with hS3
  have hfold : pushList S0 [T0, T0, T0] = S3 := rfl
  have hcap3 : S3.capacity = 3 := rfl
  have e1 : S1.priority_sum =
      setTreeLoop (· + ·)
        (Function.update (fun _ => (0 : ℝ)) 3 ((1 : ℝ) ^ (1 : ℝ))) 3 := rfl
  have a3 : S1.priority_sum 3 = 1 := by
    rw [e1, setTreeLoop_eval_three]
    norm_num [Function.update_apply, Real.one_rpow]
  have a5 : S1.priority_sum 5 = 0 := by
    rw [e1, setTreeLoop_eval_three]
    norm_num [Function.update_apply]
  have e2 : S2.priority_sum =
      setTreeLoop (· + ·) (Function.update S1.priority_sum 4 ((1 : ℝ) ^ (1 : ℝ))) 4 := by
    rw [hS2, push_priority_sum]
    rfl
  have b3 : S2.priority_sum 3 = 1 := by
    rw [e2, setTreeLoop_eval_four]
    norm_num [Function.update_apply, a3]
  have b4 : S2.priority_sum 4 = 1 := by
    rw [e2, setTreeLoop_eval_four]
    norm_num [Function.update_apply, Real.one_rpow]
  have e3 : S3.priority_sum =
      setTreeLoop (· + ·) (Function.update S2.priority_sum 5 ((1 : ℝ) ^ (1 : ℝ))) 5 := by
    rw [hS3, push_priority_sum]
    rfl
  have c1 : S3.priority_sum 1 = 3 := by
    rw [e3, setTreeLoop_eval_five]
    norm_num [Function.update_apply, Real.one_rpow, b3, b4]
  have c2 : S3.priority_sum 2 = 2 := by
    rw [e3, setTreeLoop_eval_five]
    norm_num [Function.update_apply, Real.one_rpow, b4]
  have c3 : S3.priority_sum 3 = 1 := by
    rw [e3, setTreeLoop_eval_five]
    norm_num [Function.update_apply, b3]
  have c4 : S3.priority_sum 4 = 1 := by
    rw [e3, setTreeLoop_eval_five]
    norm_num [Function.update_apply, b4]
  have hfind : S3.find_prefix_sum_idx (1 / 2) = 1 := by
    unfold PER_IS_ReplayBuffer.find_prefix_sum_idx
    rw [hcap3]
    show findLoop S3 (2 + 1) 1 (1 / 2) - 3 = 1
    rw [findLoop_step_left S3 2 1 (1 / 2) (by rw [hcap3]; norm_num) (by norm_num [c2])]
    show findLoop S3 (1 + 1) 2 (1 / 2) - 3 = 1
    rw [findLoop_step_left S3 1 2 (1 / 2) (by rw [hcap3]; norm_num) (by norm_num [c4])]
    show findLoop S3 1 4 (1 / 2) - 3 = 1
    rw [findLoop_of_ge S3 1 4 (1 / 2) (by rw [hcap3]; norm_num)]
  have hT0 := treeInvariant_push S0 T0 (sumTreeInvariant_init 3 1 3)
    (minTreeInvariant_init 3 1 3)
  have hT1 := treeInvariant_push S1 T0 hT0.1 hT0.2
  have hT2 := treeInvariant_push S2 T0 hT1.1 hT1.2
  rw [hfold]
  refine ⟨hT2.1, hT2.2, by norm_num, ?_, hfind, ?_⟩
  · rw [PER_IS_ReplayBuffer.total_sum, c1]
    norm_num
  · rw [hfind]
    intro hcontra
    have h := hcontra.1
    rw [leafPrefix, hcap3, Finset.sum_range_one, Nat.zero_add, c3] at h
    norm_num at h

/-! ### Locate correctness on power-of-two capacities (claim C2) -/

/-- With the invariant, a node at height m above the leaf row carries the sum
of the 2^m leaf cells of its subtree (power-of-two capacity). -/
theorem node_subtree_sum (s : PER_IS_ReplayBuffer) (h : ℕ)
    (hcap : s.capacity = 2 ^ h) (hinv : sumTreeInvariant s) :
    ∀ m, m ≤ h → ∀ idx, 2 ^ (h - m) ≤ idx → idx < 2 ^ (h - m + 1) →
      s.priority_sum idx =
        ∑ j ∈ Finset.range (2 ^ m),
          s.priority_sum (((idx - 2 ^ (h - m)) * 2 ^ m + j) + s.capacity) := by
  intro m
  induction m with
  | zero =>
    intro _ idx h1 h2
    simp only [Nat.sub_zero, pow_zero, mul_one] at h1 h2 ⊢
    rw [Finset.sum_range_one]
    congr 1
    rw [hcap]
    omega
  | succ m ih =>
    intro hm idx h1 h2
    have hp1 : 2 ^ (h - m) = 2 * 2 ^ (h - (m + 1)) := by
      rw [show h - m = (h - (m + 1)) + 1 by omega, pow_succ]
      ring
    have hp2 : 2 ^ (h - m + 1) = 2 * 2 ^ (h - m) := by
      rw [pow_succ]
      ring
    have hp3 : 2 ^ (h - (m + 1) + 1) = 2 * 2 ^ (h - (m + 1)) := by
      rw [pow_succ]
      ring
    have hidxcap : idx < s.capacity := by
      rw [hcap]
      have : 2 ^ (h - (m + 1) + 1) ≤ 2 ^ h := Nat.pow_le_pow_right (by omega) (by omega)
      omega
    have hidx1 : 1 ≤ idx := by
      have : 1 ≤ 2 ^ (h - (m + 1)) := Nat.one_le_two_pow
      omega
    rw [hinv idx hidx1 hidxcap]
    have hL := ih (by omega) (2 * idx) (by omega) (by omega)
    have hR := ih (by omega) (2 * idx + 1) (by omega) (by omega)
    rw [hL, hR]
    have hstartL : (2 * idx - 2 ^ (h - m)) * 2 ^ m =
        (idx - 2 ^ (h - (m + 1))) * 2 ^ (m + 1) := by
      have e1 : 2 * idx - 2 ^ (h - m) = 2 * (idx - 2 ^ (h - (m + 1))) := by omega
      rw [e1, pow_succ]
      ring
    have hstartR : (2 * idx + 1 - 2 ^ (h - m)) * 2 ^ m =
        (idx - 2 ^ (h - (m + 1))) * 2 ^ (m + 1) + 2 ^ m := by
      have e1 : 2 * idx + 1 - 2 ^ (h - m) = 2 * (idx - 2 ^ (h - (m + 1))) + 1 := by omega
      rw [e1, pow_succ]
      ring
    rw [hstartL, hstartR]
    have hsplit : (2 : ℕ) ^ (m + 1) = 2 ^ m + 2 ^ m := by
      rw [pow_succ]
      ring
    rw [hsplit, Finset.sum_range_add]
    congr 1
    apply Finset.sum_congr rfl
    intro j _
    congr 1
    omega

/-- Splitting one leaf off the cumulative prefix. -/
theorem leafPrefix_succ (s : PER_IS_ReplayBuffer) (n : ℕ) :
    leafPrefix s (n + 1) = leafPrefix s n + s.priority_sum (n + s.capacity) :=
  Finset.sum_range_succ _ n

/-- Splitting the cumulative prefix at a midpoint. -/
theorem leafPrefix_add (s : PER_IS_ReplayBuffer) (a b : ℕ) :
    leafPrefix s (a + b) =
      leafPrefix s a + ∑ j ∈ Finset.range b, s.priority_sum ((a + j) + s.capacity) :=
  Finset.sum_range_add _ a b

/-- The descent maintains: the remaining budget stays in [0, node value), and
the located leaf interval contains the original target (power-of-two
capacity). -/
theorem findLoop_pow2_descent (s : PER_IS_ReplayBuffer) (h : ℕ)
    (hcap : s.capacity = 2 ^ h) (hinv : sumTreeInvariant s) :
    ∀ m, m ≤ h → ∀ fuel, m ≤ fuel → ∀ idx, 2 ^ (h - m) ≤ idx →
      idx < 2 ^ (h - m + 1) → ∀ p : ℝ, 0 ≤ p → p < s.priority_sum idx →
      2 ^ h ≤ findLoop s fuel idx p ∧ findLoop s fuel idx p < 2 ^ (h + 1) ∧
      leafPrefix s (findLoop s fuel idx p - 2 ^ h) ≤
        leafPrefix s ((idx - 2 ^ (h - m)) * 2 ^ m) + p ∧
      leafPrefix s ((idx - 2 ^ (h - m)) * 2 ^ m) + p <
        leafPrefix s (findLoop s fuel idx p - 2 ^ h + 1) := by
  intro m
  induction m with
  | zero =>
    intro _ fuel _ idx h1 h2 p hp0 hpidx
    simp only [Nat.sub_zero, pow_zero, mul_one] at h1 h2 ⊢
    rw [findLoop_of_ge s fuel idx p (by omega)]
    refine ⟨h1, by omega, by linarith, ?_⟩
    rw [leafPrefix_succ]
    have harg : idx - 2 ^ h + s.capacity = idx := by rw [hcap]; omega
    rw [harg]
    linarith
  | succ m ih =>
    intro hm fuel hfuel idx h1 h2 p hp0 hpidx
    have hp1 : 2 ^ (h - m) = 2 * 2 ^ (h - (m + 1)) := by
      rw [show h - m = (h - (m + 1)) + 1 by omega, pow_succ]
      ring
    have hp2 : 2 ^ (h - m + 1) = 2 * 2 ^ (h - m) := by
      rw [pow_succ]
      ring
    have hp3 : 2 ^ (h - (m + 1) + 1) = 2 * 2 ^ (h - (m + 1)) := by
      rw [pow_succ]
      ring
    have hone : 1 ≤ 2 ^ (h - (m + 1)) := Nat.one_le_two_pow
    have hidxcap : idx < s.capacity := by
      rw [hcap]
      have : 2 ^ (h - (m + 1) + 1) ≤ 2 ^ h := Nat.pow_le_pow_right (by omega) (by omega)
      omega
    have hmc : idx * 2 = 2 * idx := mul_comm idx 2
    have hchild := hinv idx (by omega) hidxcap
    have hstartL : (2 * idx - 2 ^ (h - m)) * 2 ^ m =
        (idx - 2 ^ (h - (m + 1))) * 2 ^ (m + 1) := by
      have e1 : 2 * idx - 2 ^ (h - m) = 2 * (idx - 2 ^ (h - (m + 1))) := by omega
      rw [e1, pow_succ]
      ring
    have hstartR : (2 * idx + 1 - 2 ^ (h - m)) * 2 ^ m =
        (idx - 2 ^ (h - (m + 1))) * 2 ^ (m + 1) + 2 ^ m := by
      have e1 : 2 * idx + 1 - 2 ^ (h - m) = 2 * (idx - 2 ^ (h - (m + 1))) + 1 := by omega
      rw [e1, pow_succ]
      ring
    cases fuel with
    | zero => omega
    | succ f =>
      by_cases hb : s.priority_sum (idx * 2) > p
      · rw [findLoop_step_left s f idx p hidxcap hb]
        have hres := ih (by omega) f (by omega) (2 * idx) (by omega) (by omega) p hp0
          (by rw [← hmc]; exact hb)
        rw [hstartL] at hres
        exact hres
      · rw [findLoop_step_right s f idx p hidxcap hb]
        rw [hmc] at hb ⊢
        have hble : s.priority_sum (2 * idx) ≤ p := not_lt.mp hb
        have hres := ih (by omega) f (by omega) (2 * idx + 1) (by omega) (by omega)
          (p - s.priority_sum (2 * idx)) (by linarith) (by linarith)
        rw [hstartR] at hres
        have hsum2idx : s.priority_sum (2 * idx) =
            ∑ j ∈ Finset.range (2 ^ m),
              s.priority_sum (((idx - 2 ^ (h - (m + 1))) * 2 ^ (m + 1) + j) + s.capacity) := by
          rw [← hstartL]
          exact node_subtree_sum s h hcap hinv m (by omega) (2 * idx) (by omega) (by omega)
        have hLP : leafPrefix s ((idx - 2 ^ (h - (m + 1))) * 2 ^ (m + 1) + 2 ^ m) =
            leafPrefix s ((idx - 2 ^ (h - (m + 1))) * 2 ^ (m + 1)) +
              s.priority_sum (2 * idx) := by
          rw [leafPrefix_add, hsum2idx]
        rw [hLP] at hres
        refine ⟨hres.1, hres.2.1, by linarith [hres.2.2.1], by linarith [hres.2.2.2]⟩

/-- C2, amended: the prefix-sum property of find_prefix_sum_idx holds for
power-of-two capacities (the counterexample above shows it fails for
capacity 3): whenever the sum-tree invariant holds and 0 <= p < total_sum,
the returned slot i satisfies cumsum[0,i) <= p < cumsum[0,i], and i is in
range.  The source layout stores the leaf of slot j at cell capacity + j,
which coincides with in-order leaf order exactly when capacity is a power
of two. -/
theorem find_prefix_sum_idx_correct_pow2 (s : PER_IS_ReplayBuffer) (h : ℕ)
    (hcap : s.capacity = 2 ^ h) (hinv : sumTreeInvariant s) (p : ℝ)
    (hp0 : 0 ≤ p) (hps : p < s.total_sum) :
    s.find_prefix_sum_idx p < s.capacity ∧
      leafPrefix s (s.find_prefix_sum_idx p) ≤ p ∧
      p < leafPrefix s (s.find_prefix_sum_idx p + 1) := by
  have hres := findLoop_pow2_descent s h hcap hinv h le_rfl s.capacity
    (by rw [hcap]; have := Nat.lt_pow_self (by omega : 1 < 2) h; omega)
    1 (by simp) (by simp only [Nat.sub_self, zero_add, pow_one]; omega) p hp0 hps
  simp only [Nat.sub_self, pow_zero, Nat.sub_zero] at hres
  have hzero : (1 - 1) * 2 ^ h = 0 := by omega
  rw [hzero] at hres
  have hlp0 : leafPrefix s 0 = 0 := by
    unfold leafPrefix
    simp
  rw [hlp0] at hres
  unfold PER_IS_ReplayBuffer.find_prefix_sum_idx
  rw [hcap] at hres ⊢
  refine ⟨by omega, ?_, ?_⟩
  · have := hres.2.2.1
    linarith
  · have := hres.2.2.2
    linarith

/-- A concrete capacity-4 buffer whose sum tree carries leaf priorities
1, 1, 1, 1 under internal nodes 4, 2, 2. -/
noncomputable def B4 : PER_IS_ReplayBuffer :=
  { capacity := 4
    alpha := 1
    priority_sum := fun n =>
      if n = 1 then 4 else if n = 2 then 2 else if n = 3 then 2 else
        if n ≤ 7 then 1 else 0
    priority_min := fun _ => ⊤
    max_priority := 1
    data := fun _ => T0
    next_idx := 0
    size := 4 }

theorem find_prefix_sum_idx_correct_pow2_witness :
    B4.find_prefix_sum_idx (5 / 2) < B4.capacity ∧
      leafPrefix B4 (B4.find_prefix_sum_idx (5 / 2)) ≤ 5 / 2 ∧
      (5 / 2 : ℝ) < leafPrefix B4 (B4.find_prefix_sum_idx (5 / 2) + 1) := by
  apply find_prefix_sum_idx_correct_pow2 B4 2 rfl
  · intro n h1 h2
    have hc : B4.capacity = 4 := rfl
    rw [hc] at h2
    interval_cases n <;> norm_num [B4]
  · norm_num
  · norm_num [PER_IS_ReplayBuffer.total_sum, B4]

/-! ### The concrete capacity-4, alpha-1 scenario (claim C3) -/

/-- C3: on a fresh buffer with capacity 4 and alpha 1, four pushes give
total sum 4 (implicit priority 1 each); update_priorities([0,1,2,3],
[1,2,3,4]) gives total sum 10 and total min 1, find_prefix_sum_idx(0.5)
returns slot 0 and find_prefix_sum_idx(9.9) returns slot 3; a 5th push
overwrites slot 0, re-seeds its leaf at max_priority ** alpha = 4, and the
total sum becomes 13. -/
theorem scenario_capacity_four (t1 t2 t3 t4 t5 : Transition) :
    ((((PER_IS_ReplayBuffer.init 4 1 3).push t1).1.push t2).1.push t3).1.push t4
      |>.1.total_sum = 4 ∧
    (((((PER_IS_ReplayBuffer.init 4 1 3).push t1).1.push t2).1.push t3).1.push t4
      |>.1.update_priorities [0, 1, 2, 3] [1, 2, 3, 4]).total_sum = 10 ∧
    (((((PER_IS_ReplayBuffer.init 4 1 3).push t1).1.push t2).1.push t3).1.push t4
      |>.1.update_priorities [0, 1, 2, 3] [1, 2, 3, 4]).total_min = ((1 : ℝ) : WithTop ℝ) ∧
    (((((PER_IS_ReplayBuffer.init 4 1 3).push t1).1.push t2).1.push t3).1.push t4
      |>.1.update_priorities [0, 1, 2, 3] [1, 2, 3, 4]).find_prefix_sum_idx (1 / 2) = 0 ∧
    (((((PER_IS_ReplayBuffer.init 4 1 3).push t1).1.push t2).1.push t3).1.push t4
      |>.1.update_priorities [0, 1, 2, 3] [1, 2, 3, 4]).find_prefix_sum_idx (99 / 10) = 3 ∧
    ((((((PER_IS_ReplayBuffer.init 4 1 3).push t1).1.push t2).1.push t3).1.push t4
      |>.1.update_priorities [0, 1, 2, 3] [1, 2, 3, 4]).push t5).1.data 0 = t5 ∧
    ((((((PER_IS_ReplayBuffer.init 4 1 3).push t1).1.push t2).1.push t3).1.push t4
      |>.1.update_priorities [0, 1, 2, 3] [1, 2, 3, 4]).push t5).1.priority_sum (0 + 4) = 4 ∧
    ((((((PER_IS_ReplayBuffer.init 4 1 3).push t1).1.push t2).1.push t3).1.push t4
      |>.1.update_priorities [0, 1, 2, 3] [1, 2, 3, 4]).push t5).1.total_sum = 13 := by
  set S0 := PER_IS_ReplayBuffer.init 4 1 3 with hS0
  set S1 := (S0.push t1).1 with hS1
  set S2 := (S1.push t2).1 with hS2
  set S3 := (S2.push t3).1 with hS3
  set S4 := (S3.push t4).1 with hS4
  set U1 := updateStep S4 0 1 with hU1
  set U2 := updateStep U1 1 2 with hU2
  set U3 := updateStep U2 2 3 with hU3
  set U4 := updateStep U3 3 4 with hU4
  have hUfold : S4.update_priorities [0, 1, 2, 3] [1, 2, 3, 4] = U4 := rfl
  set S6 := (U4.push t5).1 with hS6
  -- sum tree, push layers
  have e1 : S1.priority_sum =
      setTreeLoop (· + ·)
        (Function.update (fun _ => (0 : ℝ)) 4 ((1 : ℝ) ^ (1 : ℝ))) 4 := rfl
  have a4 : S1.priority_sum 4 = 1 := by
    rw [e1, setTreeLoop_eval_four]
    norm_num [Function.update_apply, Real.one_rpow]
  have e2 : S2.priority_sum =
      setTreeLoop (· + ·) (Function.update S1.priority_sum 5 ((1 : ℝ) ^ (1 : ℝ))) 5 := by
    rw [hS2, push_priority_sum]
    rfl
  have b2 : S2.priority_sum 2 = 2 := by
    rw [e2, setTreeLoop_eval_five]
    norm_num [Function.update_apply, Real.one_rpow, a4]
  have b5 : S2.priority_sum 5 = 1 := by
    rw [e2, setTreeLoop_eval_five]
    norm_num [Function.update_apply, Real.one_rpow]
  have e3 : S3.priority_sum =
      setTreeLoop (· + ·) (Function.update S2.priority_sum 6 ((1 : ℝ) ^ (1 : ℝ))) 6 := by
    rw [hS3, push_priority_sum]
    rfl
  have c2 : S3.priority_sum 2 = 2 := by
    rw [e3, setTreeLoop_eval_six]
    norm_num [Function.update_apply, b2]
  have c5 : S3.priority_sum 5 = 1 := by
    rw [e3, setTreeLoop_eval_six]
    norm_num [Function.update_apply, b5]
  have c6 : S3.priority_sum 6 = 1 := by
    rw [e3, setTreeLoop_eval_six]
    norm_num [Function.update_apply, Real.one_rpow]
  have e4 : S4.priority_sum =
      setTreeLoop (· + ·) (Function.update S3.priority_sum 7 ((1 : ℝ) ^ (1 : ℝ))) 7 := by
    rw [hS4, push_priority_sum]
    rfl
  have d1 : S4.priority_sum 1 = 4 := by
    rw [e4, setTreeLoop_eval_seven]
    norm_num [Function.update_apply, Real.one_rpow, c2, c6]
  have d3 : S4.priority_sum 3 = 2 := by
    rw [e4, setTreeLoop_eval_seven]
    norm_num [Function.update_apply, Real.one_rpow, c6]
  have d5 : S4.priority_sum 5 = 1 := by
    rw [e4, setTreeLoop_eval_seven]
    norm_num [Function.update_apply, c5]
  have d6 : S4.priority_sum 6 = 1 := by
    rw [e4, setTreeLoop_eval_seven]
    norm_num [Function.update_apply, c6]
  have d7 : S4.priority_sum 7 = 1 := by
    rw [e4, setTreeLoop_eval_seven]
    norm_num [Function.update_apply, Real.one_rpow]
  -- sum tree, update layers
  have eu1 : U1.priority_sum =
      setTreeLoop (· + ·) (Function.update S4.priority_sum 4 ((1 : ℝ) ^ (1 : ℝ))) 4 := by
    rw [hU1, updateStep_priority_sum]
    rfl
  have u1p3 : U1.priority_sum 3 = 2 := by
    rw [eu1, setTreeLoop_eval_four]
    norm_num [Function.update_apply, d3]
  have u1p4 : U1.priority_sum 4 = 1 := by
    rw [eu1, setTreeLoop_eval_four]
    norm_num [Function.update_apply, Real.one_rpow]
  have u1p5 : U1.priority_sum 5 = 1 := by
    rw [eu1, setTreeLoop_eval_four]
    norm_num [Function.update_apply, d5]
  have u1p6 : U1.priority_sum 6 = 1 := by
    rw [eu1, setTreeLoop_eval_four]
    norm_num [Function.update_apply, d6]
  have u1p7 : U1.priority_sum 7 = 1 := by
    rw [eu1, setTreeLoop_eval_four]
    norm_num [Function.update_apply, d7]
  have eu2 : U2.priority_sum =
      setTreeLoop (· + ·) (Function.update U1.priority_sum 5 ((2 : ℝ) ^ (1 : ℝ))) 5 := by
    rw [hU2, updateStep_priority_sum]
    rfl
  have u2p2 : U2.priority_sum 2 = 3 := by
    rw [eu2, setTreeLoop_eval_five]
    norm_num [Function.update_apply, Real.rpow_one, u1p4]
  have u2p3 : U2.priority_sum 3 = 2 := by
    rw [eu2, setTreeLoop_eval_five]
    norm_num [Function.update_apply, u1p3]
  have u2p4 : U2.priority_sum 4 = 1 := by
    rw [eu2, setTreeLoop_eval_five]
    norm_num [Function.update_apply, u1p4]
  have u2p5 : U2.priority_sum 5 = 2 := by
    rw [eu2, setTreeLoop_eval_five]
    norm_num [Function.update_apply, Real.rpow_one]
  have u2p6 : U2.priority_sum 6 = 1 := by
    rw [eu2, setTreeLoop_eval_five]
    norm_num [Function.update_apply, u1p6]
  have u2p7 : U2.priority_sum 7 = 1 := by
    rw [eu2, setTreeLoop_eval_five]
    norm_num [Function.update_apply, u1p7]
  have eu3 : U3.priority_sum =
      setTreeLoop (· + ·) (Function.update U2.priority_sum 6 ((3 : ℝ) ^ (1 : ℝ))) 6 := by
    rw [hU3, updateStep_priority_sum]
    rfl
  have u3p2 : U3.priority_sum 2 = 3 := by
    rw [eu3, setTreeLoop_eval_six]
    norm_num [Function.update_apply, u2p2]
  have u3p3 : U3.priority_sum 3 = 4 := by
    rw [eu3, setTreeLoop_eval_six]
    norm_num [Function.update_apply, Real.rpow_one, u2p7]
  have u3p4 : U3.priority_sum 4 = 1 := by
    rw [eu3, setTreeLoop_eval_six]
    norm_num [Function.update_apply, u2p4]
  have u3p5 : U3.priority_sum 5 = 2 := by
    rw [eu3, setTreeLoop_eval_six]
    norm_num [Function.update_apply, u2p5]
  have u3p6 : U3.priority_sum 6 = 3 := by
    rw [eu3, setTreeLoop_eval_six]
    norm_num [Function.update_apply, Real.rpow_one]
  have u3p7 : U3.priority_sum 7 = 1 := by
    rw [eu3, setTreeLoop_eval_six]
    norm_num [Function.update_apply, u2p7]
  have eu4 : U4.priority_sum =
      setTreeLoop (· + ·) (Function.update U3.priority_sum 7 ((4 : ℝ) ^ (1 : ℝ))) 7 := by
    rw [hU4, updateStep_priority_sum]
    rfl
  have u4p1 : U4.priority_sum 1 = 10 := by
    rw [eu4, setTreeLoop_eval_seven]
    norm_num [Function.update_apply, Real.rpow_one, u3p2, u3p6]
  have u4p2 : U4.priority_sum 2 = 3 := by
    rw [eu4, setTreeLoop_eval_seven]
    norm_num [Function.update_apply, u3p2]
  have u4p3 : U4.priority_sum 3 = 7 := by
    rw [eu4, setTreeLoop_eval_seven]
    norm_num [Function.update_apply, Real.rpow_one, u3p6]
  have u4p4 : U4.priority_sum 4 = 1 := by
    rw [eu4, setTreeLoop_eval_seven]
    norm_num [Function.update_apply, u3p4]
  have u4p5 : U4.priority_sum 5 = 2 := by
    rw [eu4, setTreeLoop_eval_seven]
    norm_num [Function.update_apply, u3p5]
  have u4p6 : U4.priority_sum 6 = 3 := by
    rw [eu4, setTreeLoop_eval_seven]
    norm_num [Function.update_apply, u3p6]
  -- min tree, update layers
  have em1 : U1.priority_min =
      setTreeLoop min (Function.update S4.priority_min 4
        ((((1 : ℝ) ^ (1 : ℝ) : ℝ)) : WithTop ℝ)) 4 := by
    rw [hU1, updateStep_priority_min]
    rfl
  have m1p4 : U1.priority_min 4 = ((1 : ℝ) : WithTop ℝ) := by
    rw [em1, setTreeLoop_eval_four]
    norm_num [Function.update_apply, Real.one_rpow]
  have em2 : U2.priority_min =
      setTreeLoop min (Function.update U1.priority_min 5
        ((((2 : ℝ) ^ (1 : ℝ) : ℝ)) : WithTop ℝ)) 5 := by
    rw [hU2, updateStep_priority_min]
    rfl
  have m2p2 : U2.priority_min 2 = ((1 : ℝ) : WithTop ℝ) := by
    rw [em2, setTreeLoop_eval_five]
    simp only [Function.update_apply]
    norm_num [m1p4, Real.rpow_one, ← WithTop.coe_min]
  have em3 : U3.priority_min =
      setTreeLoop min (Function.update U2.priority_min 6
        ((((3 : ℝ) ^ (1 : ℝ) : ℝ)) : WithTop ℝ)) 6 := by
    rw [hU3, updateStep_priority_min]
    rfl
  have m3p2 : U3.priority_min 2 = ((1 : ℝ) : WithTop ℝ) := by
    rw [em3, setTreeLoop_eval_six]
    norm_num [Function.update_apply, m2p2]
  have m3p6 : U3.priority_min 6 = ((3 : ℝ) : WithTop ℝ) := by
    rw [em3, setTreeLoop_eval_six]
    norm_num [Function.update_apply, Real.rpow_one]
  have em4 : U4.priority_min =
      setTreeLoop min (Function.update U3.priority_min 7
        ((((4 : ℝ) ^ (1 : ℝ) : ℝ)) : WithTop ℝ)) 7 := by
    rw [hU4, updateStep_priority_min]
    rfl
  have m4p1 : U4.priority_min 1 = ((1 : ℝ) : WithTop ℝ) := by
    rw [em4, setTreeLoop_eval_seven]
    simp only [Function.update_apply]
    norm_num [m3p2, m3p6, Real.rpow_one, ← WithTop.coe_min]
  -- find_prefix_sum_idx on U4
  have hcapU : U4.capacity = 4 := rfl
  have hfind1 : U4.find_prefix_sum_idx (1 / 2) = 0 := by
    unfold PER_IS_ReplayBuffer.find_prefix_sum_idx
    rw [hcapU]
    show findLoop U4 (3 + 1) 1 (1 / 2) - 4 = 0
    rw [findLoop_step_left U4 3 1 (1 / 2) (by rw [hcapU]; norm_num) (by norm_num [u4p2])]
    show findLoop U4 (2 + 1) 2 (1 / 2) - 4 = 0
    rw [findLoop_step_left U4 2 2 (1 / 2) (by rw [hcapU]; norm_num) (by norm_num [u4p4])]
    show findLoop U4 2 4 (1 / 2) - 4 = 0
    rw [findLoop_of_ge U4 2 4 (1 / 2) (by rw [hcapU])]
  have hfind2 : U4.find_prefix_sum_idx (99 / 10) = 3 := by
    unfold PER_IS_ReplayBuffer.find_prefix_sum_idx
    rw [hcapU]
    show findLoop U4 (3 + 1) 1 (99 / 10) - 4 = 3
    rw [findLoop_step_right U4 3 1 (99 / 10) (by rw [hcapU]; norm_num) (by norm_num [u4p2])]
    show findLoop U4 (2 + 1) 3 (99 / 10 - U4.priority_sum 2) - 4 = 3
    rw [findLoop_step_right U4 2 3 _ (by rw [hcapU]; norm_num) (by norm_num [u4p2, u4p6])]
    show findLoop U4 2 7 _ - 4 = 3
    rw [findLoop_of_ge U4 2 7 _ (by rw [hcapU]; norm_num)]
  -- the 5th push
  have hnext : U4.next_idx = 0 := by
    simp only [hU4, hU3, hU2, hU1, updateStep_next_idx, hS4, hS3, hS2, hS1, hS0,
      push_state_next_idx, push_state_capacity, PER_IS_ReplayBuffer.init]
  have hmp : U4.max_priority = 4 := by
    rw [hU4, updateStep_max_priority, hU3, updateStep_max_priority, hU2,
      updateStep_max_priority, hU1, updateStep_max_priority]
    have h1 : S4.max_priority = 1 := rfl
    rw [h1]
    norm_num
  have halphaU : U4.alpha = 1 := rfl
  have e6 : S6.priority_sum =
      setTreeLoop (· + ·) (Function.update U4.priority_sum 4 ((4 : ℝ) ^ (1 : ℝ))) 4 := by
    rw [hS6, push_priority_sum, hmp, halphaU, hnext, hcapU]
  have s6p4 : S6.priority_sum (0 + 4) = 4 := by
    show S6.priority_sum 4 = 4
    rw [e6, setTreeLoop_eval_four]
    norm_num [Function.update_apply, Real.rpow_one]
  have s6p1 : S6.priority_sum 1 = 13 := by
    rw [e6, setTreeLoop_eval_four]
    norm_num [Function.update_apply, Real.rpow_one, u4p3, u4p5]
  have hdata : S6.data 0 = t5 := by
    rw [hS6, push_state_data, hnext, Function.update_same]
  rw [hUfold]
  exact ⟨d1, u4p1, m4p1, hfind1, hfind2, hdata, s6p4, s6p1⟩

/-! ### Reachable-state invariants for the sampler (claim C6) -/

/-- The call sequences the amended claim C6 ranges over: update_priorities
gets in-range indices and strictly positive priorities. -/
def PositiveOps (capacity : ℕ) (ops : List BufferOp) : Prop :=
  ∀ op ∈ ops, match op with
    | .updateOp ix ps => (∀ i ∈ ix, i < capacity) ∧ (∀ p ∈ ps, 0 < p)
    | _ => True

/-- Everything sample soundness needs from a reachable state: the two tree
invariants, the pairing of the two leaf rows (an untouched leaf holds
(inf, 0), a written one a positive value in both trees), size and cursor
bookkeeping, at least one written leaf when non-empty, and the max_priority
lower bound. -/
def GoodState (s : PER_IS_ReplayBuffer) : Prop :=
  sumTreeInvariant s ∧ minTreeInvariant s ∧
  (∀ j, j < s.capacity →
    (s.priority_min (j + s.capacity) = ⊤ ∧ s.priority_sum (j + s.capacity) = 0) ∨
    (0 < s.priority_sum (j + s.capacity) ∧
      s.priority_min (j + s.capacity) =
        ((s.priority_sum (j + s.capacity) : ℝ) : WithTop ℝ))) ∧
  s.size ≤ s.capacity ∧
  (1 ≤ s.size → ∃ j, j < s.capacity ∧ s.priority_min (j + s.capacity) ≠ ⊤) ∧
  (s.capacity = 0 ∨ s.next_idx < s.capacity) ∧
  1 ≤ s.max_priority

theorem update_priorities_capacity (ix : List ℕ) :
    ∀ (ps : List ℝ) (s : PER_IS_ReplayBuffer),
      (s.update_priorities ix ps).capacity = s.capacity := by
  induction ix with
  | nil => intro ps s; rfl
  | cons i ix ih =>
    intro ps s
    cases ps with
    | nil => rw [update_priorities_nil_right]
    | cons p ps => rw [update_priorities_cons_step, ih, updateStep_capacity]

theorem applyOp_capacity (s : PER_IS_ReplayBuffer) (op : BufferOp) :
    (applyOp s op).capacity = s.capacity := by
  cases op with
  | pushOp t => rfl
  | updateOp ix ps => exact update_priorities_capacity ix ps s
  | sampleOp n b r => rfl

theorem goodState_init (capacity : ℕ) (alpha : ℝ) (state_dim : ℕ) :
    GoodState (PER_IS_ReplayBuffer.init capacity alpha state_dim) := by
  refine ⟨sumTreeInvariant_init _ _ _, minTreeInvariant_init _ _ _, ?_, ?_, ?_, ?_, ?_⟩
  · intro j hj
    exact Or.inl ⟨rfl, rfl⟩
  · exact Nat.zero_le _
  · intro h
    simp [PER_IS_ReplayBuffer.init] at h
  · by_cases h : capacity = 0
    · exact Or.inl h
    · exact Or.inr (by simp [PER_IS_ReplayBuffer.init]; omega)
  · exact le_rfl

theorem goodState_push (s : PER_IS_ReplayBuffer) (t : Transition)
    (hg : GoodState s) : GoodState (s.push t).1 := by
  obtain ⟨hs, hm, hpair, hsz, hocc, hni, hmp⟩ := hg
  obtain ⟨hs', hm'⟩ := treeInvariant_push s t hs hm
  have hmp_pos : (0 : ℝ) < s.max_priority ^ s.alpha :=
    Real.rpow_pos_of_pos (by linarith) _
  refine ⟨hs', hm', ?_, ?_, ?_, ?_, ?_⟩
  · intro j hj
    rw [push_state_capacity] at hj
    rcases hni with hc0 | hni
    · omega
    by_cases hjn : j = s.next_idx
    · subst hjn
      right
      have h1 := push_leaf_sum s t
      have h2 := push_leaf_min s t
      rw [show (s.push t).1.capacity = s.capacity from rfl]
      rw [h1, h2]
      exact ⟨hmp_pos, rfl⟩
    · rw [show (s.push t).1.capacity = s.capacity from rfl]
      rw [push_leaf_sum_other s t j hni hjn, push_leaf_min_other s t j hni hjn]
      exact hpair j hj
  · rw [push_state_size, push_state_capacity]
    omega
  · intro _
    rcases hni with hc0 | hni
    · rw [push_state_size] at *
      rw [push_state_capacity]
      omega
    · refine ⟨s.next_idx, by rw [push_state_capacity]; omega, ?_⟩
      rw [show (s.push t).1.capacity = s.capacity from rfl, push_leaf_min s t]
      exact WithTop.coe_ne_top
  · rw [push_state_next_idx, push_state_capacity]
    rcases hni with hc0 | hni
    · exact Or.inl hc0
    · exact Or.inr (Nat.mod_lt _ (by omega))
  · rw [push_state_max_priority]
    exact hmp

theorem goodState_updateStep (s : PER_IS_ReplayBuffer) (i : ℕ) (p : ℝ)
    (hg : GoodState s) (hi : i < s.capacity) (hp : 0 < p) :
    GoodState (updateStep s i p) := by
  obtain ⟨hs, hm, hpair, hsz, hocc, hni, hmp⟩ := hg
  have hpa : (0 : ℝ) < p ^ s.alpha := Real.rpow_pos_of_pos hp _
  have hs' : sumTreeInvariant (updateStep s i p) :=
    sumTreeInvariant_set_priority_sum _ _ _
      (sumTreeInvariant_set_priority_min _ _ _ (fun n h1 hn => hs n h1 hn))
  have hm' : minTreeInvariant (updateStep s i p) :=
    minTreeInvariant_set_priority_sum _ _ _
      (minTreeInvariant_set_priority_min _ _ _ (fun n h1 hn => hm n h1 hn))
  refine ⟨hs', hm', ?_, ?_, ?_, ?_, ?_⟩
  · intro j hj
    rw [updateStep_capacity] at hj
    by_cases hji : j = i
    · subst hji
      right
      rw [show (updateStep s j p).capacity = s.capacity from rfl]
      rw [updateStep_leaf_sum_self, updateStep_leaf_min_self]
      exact ⟨hpa, rfl⟩
    · rw [show (updateStep s i p).capacity = s.capacity from rfl]
      rw [updateStep_leaf_sum_other s i p j hi hji,
        updateStep_leaf_min_other s i p j hi hji]
      exact hpair j hj
  · rw [updateStep_size, updateStep_capacity]
    omega
  · intro hsz1
    rw [updateStep_size] at hsz1
    obtain ⟨j, hjc, hjt⟩ := hocc hsz1
    refine ⟨j, by rw [updateStep_capacity]; omega, ?_⟩
    rw [show (updateStep s i p).capacity = s.capacity from rfl]
    by_cases hji : j = i
    · subst hji
      rw [updateStep_leaf_min_self]
      exact WithTop.coe_ne_top
    · rw [updateStep_leaf_min_other s i p j hi hji]
      exact hjt
  · rw [updateStep_next_idx, updateStep_capacity]
    exact hni
  · rw [updateStep_max_priority]
    exact le_trans hmp (le_max_left _ _)

theorem goodState_update_priorities (ix : List ℕ) :
    ∀ (ps : List ℝ) (s : PER_IS_ReplayBuffer), GoodState s →
      (∀ i ∈ ix, i < s.capacity) → (∀ p ∈ ps, 0 < p) →
      GoodState (s.update_priorities ix ps) := by
  induction ix with
  | nil => intro ps s hg _ _; exact hg
  | cons i ix ih =>
    intro ps s hg hrange hpos
    cases ps with
    | nil => rw [update_priorities_nil_right]; exact hg
    | cons p ps =>
      rw [update_priorities_cons_step]
      refine ih ps (updateStep s i p)
        (goodState_updateStep s i p hg (hrange i (List.mem_cons_self i ix))
          (hpos p (List.mem_cons_self p ps))) ?_ ?_
      · intro i' hi'
        rw [updateStep_capacity]
        exact hrange i' (List.mem_cons_of_mem i hi')
      · intro p' hp'
        exact hpos p' (List.mem_cons_of_mem p hp')

theorem goodState_applyOp (s : PER_IS_ReplayBuffer) (op : BufferOp)
    (hg : GoodState s)
    (hop : match op with
      | .updateOp ix ps => (∀ i ∈ ix, i < s.capacity) ∧ (∀ p ∈ ps, 0 < p)
      | _ => True) :
    GoodState (applyOp s op) := by
  cases op with
  | pushOp t => exact goodState_push s t hg
  | updateOp ix ps => exact goodState_update_priorities ix ps s hg hop.1 hop.2
  | sampleOp n b r => exact hg

theorem goodState_runOps (ops : List BufferOp) :
    ∀ s : PER_IS_ReplayBuffer, GoodState s → PositiveOps s.capacity ops →
      GoodState (runOps s ops) := by
  induction ops with
  | nil => intro s hg _; exact hg
  | cons op ops ih =>
    intro s hg hops
    rw [runOps_cons]
    refine ih (applyOp s op)
      (goodState_applyOp s op hg (hops op (List.mem_cons_self op ops))) ?_
    intro op' hop'
    rw [applyOp_capacity]
    exact hops op' (List.mem_cons_of_mem op hop')

/-! ### Chain lemmas through the two trees -/

/-- With the min invariant, the root is a lower bound of every cell of the
min tree. -/
theorem min_root_le_node (s : PER_IS_ReplayBuffer) (hm : minTreeInvariant s) :
    ∀ l, 1 ≤ l → l < 2 * s.capacity → s.priority_min 1 ≤ s.priority_min l := by
  intro l
  induction l using Nat.strong_induction_on with
  | _ l ihl =>
    intro h1 h2
    rcases Nat.lt_or_ge l 2 with hl2 | hl2
    · have : l = 1 := by omega
      subst this
      exact le_rfl
    · have hpar1 : 1 ≤ l / 2 := by omega
      have hpar2 : l / 2 < s.capacity := by omega
      have hinv := hm (l / 2) hpar1 hpar2
      have hchild : s.priority_min (l / 2) ≤ s.priority_min l := by
        rcases Nat.even_or_odd l with he | ho
        · have : 2 * (l / 2) = l := by
            obtain ⟨k, hk⟩ := he
            omega
          rw [hinv, this]
          exact min_le_left _ _
        · have : 2 * (l / 2) + 1 = l := by
            obtain ⟨k, hk⟩ := ho
            omega
          rw [hinv, this]
          exact min_le_right _ _
      exact le_trans (ihl (l / 2) (by omega) hpar1 (by omega)) hchild

/-- With the sum invariant and non-negative leaves, every cell of the sum
tree is non-negative. -/
theorem sum_node_nonneg (s : PER_IS_ReplayBuffer) (hs : sumTreeInvariant s)
    (hleaf : ∀ j, j < s.capacity → 0 ≤ s.priority_sum (j + s.capacity)) :
    ∀ k l, 2 * s.capacity - l ≤ k → 1 ≤ l → l < 2 * s.capacity →
      0 ≤ s.priority_sum l := by
  intro k
  induction k with
  | zero => intro l hk h1 h2; omega
  | succ k ih =>
    intro l hk h1 h2
    rcases Nat.lt_or_ge l s.capacity with hlt | hge
    · rw [hs l h1 hlt]
      have hc1 := ih (2 * l) (by omega) (by omega) (by omega)
      have hc2 := ih (2 * l + 1) (by omega) (by omega) (by omega)
      exact add_nonneg hc1 hc2
    · have := hleaf (l - s.capacity) (by omega)
      rwa [show l - s.capacity + s.capacity = l by omega] at this
/-- With the sum invariant and non-negative leaves, the root bounds every
cell of the sum tree from above. -/
theorem sum_root_ge_node (s : PER_IS_ReplayBuffer) (hs : sumTreeInvariant s)
    (hleaf : ∀ j, j < s.capacity → 0 ≤ s.priority_sum (j + s.capacity)) :
    ∀ l, 1 ≤ l → l < 2 * s.capacity → s.priority_sum l ≤ s.priority_sum 1 := by
  intro l
  induction l using Nat.strong_induction_on with
  | _ l ihl =>
    intro h1 h2
    rcases Nat.lt_or_ge l 2 with hl2 | hl2
    · have : l = 1 := by omega
      subst this
      exact le_rfl
    · have hpar1 : 1 ≤ l / 2 := by omega
      have hpar2 : l / 2 < s.capacity := by omega
      have hinv := hs (l / 2) hpar1 hpar2
      have hchild : s.priority_sum l ≤ s.priority_sum (l / 2) := by
        rcases Nat.even_or_odd l with he | ho
        · have heq : 2 * (l / 2) = l := by
            obtain ⟨k, hk⟩ := he
            omega
          have hsib := sum_node_nonneg s hs hleaf (2 * s.capacity) (2 * (l / 2) + 1)
            (by omega) (by omega) (by omega)
          rw [hinv, heq]
          rw [heq] at hsib
          linarith
        · have heq : 2 * (l / 2) + 1 = l := by
            obtain ⟨k, hk⟩ := ho
            omega
          have hsib := sum_node_nonneg s hs hleaf (2 * s.capacity) (2 * (l / 2))
            (by omega) (by omega) (by omega)
          rw [hinv, heq]
          linarith
      exact le_trans hchild (ihl (l / 2) (by omega) hpar1 (by omega))

/-- With the min invariant and positive leaves, every cell of the min tree
is positive. -/
theorem min_node_pos (s : PER_IS_ReplayBuffer) (hm : minTreeInvariant s)
    (hleaf : ∀ j, j < s.capacity → 0 < s.priority_min (j + s.capacity)) :
    ∀ k l, 2 * s.capacity - l ≤ k → 1 ≤ l → l < 2 * s.capacity →
      0 < s.priority_min l := by
  intro k
  induction k with
  | zero => intro l hk h1 h2; omega
  | succ k ih =>
    intro l hk h1 h2
    rcases Nat.lt_or_ge l s.capacity with hlt | hge
    · rw [hm l h1 hlt]
      have hc1 := ih (2 * l) (by omega) (by omega) (by omega)
      have hc2 := ih (2 * l + 1) (by omega) (by omega) (by omega)
      exact lt_min hc1 hc2
    · have := hleaf (l - s.capacity) (by omega)
      rwa [show l - s.capacity + s.capacity = l by omega] at this

/-- With the sum invariant, the descent keeps the remaining budget inside
[0, node value), so the leaf it lands on has positive mass. -/
theorem findLoop_pos (s : PER_IS_ReplayBuffer) (hs : sumTreeInvariant s) :
    ∀ (fuel idx : ℕ) (p : ℝ), 1 ≤ idx → idx < 2 * s.capacity →
      s.capacity ≤ 2 ^ fuel * idx → 0 ≤ p → p < s.priority_sum idx →
      s.capacity ≤ findLoop s fuel idx p ∧
        findLoop s fuel idx p < 2 * s.capacity ∧
        0 < s.priority_sum (findLoop s fuel idx p) := by
  intro fuel
  induction fuel with
  | zero =>
    intro idx p h1 h2 hf hp0 hpv
    rw [findLoop]
    refine ⟨by simpa using hf, h2, by linarith⟩
  | succ fuel ih =>
    intro idx p h1 h2 hf hp0 hpv
    have hpow : 2 ^ (fuel + 1) * idx = 2 ^ fuel * (2 * idx) := by ring
    rw [hpow] at hf
    by_cases hlt : idx < s.capacity
    · have hchild := hs idx h1 hlt
      by_cases hb : s.priority_sum (idx * 2) > p
      · rw [findLoop_step_left s fuel idx p hlt hb]
        have hb' : p < s.priority_sum (2 * idx) := by
          rwa [mul_comm idx 2] at hb
        exact ih (2 * idx) p (by omega) (by omega) hf hp0 hb'
      · rw [findLoop_step_right s fuel idx p hlt hb]
        rw [mul_comm idx 2] at hb ⊢
        have hble := not_lt.mp hb
        have hf' : s.capacity ≤ 2 ^ fuel * (2 * idx + 1) := by
          have : 2 ^ fuel * (2 * idx) ≤ 2 ^ fuel * (2 * idx + 1) :=
            Nat.mul_le_mul_left _ (by omega)
          omega
        exact ih (2 * idx + 1) (p - s.priority_sum (2 * idx)) (by omega) (by omega)
          hf' (by linarith) (by linarith)
    · rw [findLoop, if_neg hlt]
      refine ⟨by omega, h2, by linarith⟩

/-! ### Sample weights stay in (0, 1] (claim C6) -/

/-- C6, amended: on every state reached by pushes, samples and
update_priorities calls with in-range indices and strictly positive
priorities, every weight sample returns lies in (0, 1] (size at least 1,
beta at least 0, each uniform draw in [0, 1)).  The claim as stated, which
also admits priority 0, is refuted by sample_weight_zero_counterexample:
a zero priority zeroes the min root, max_weight becomes 0 ** (-beta), and
in Python the sample call divides by zero for beta > 0 (in this exact-real
embedding the weight collapses to 0, outside (0, 1]). -/
theorem sample_weights_in_unit_interval (capacity : ℕ) (alpha : ℝ) (state_dim : ℕ)
    (ops : List BufferOp) (hops : PositiveOps capacity ops)
    (batch_size : ℕ) (beta : ℝ) (hbeta : 0 ≤ beta) (rand : ℕ → ℝ)
    (hrand : ∀ i, 0 ≤ rand i ∧ rand i < 1)
    (hsize : 1 ≤ (runOps (PER_IS_ReplayBuffer.init capacity alpha state_dim) ops).size) :
    ∀ w ∈ ((runOps (PER_IS_ReplayBuffer.init capacity alpha state_dim) ops).sample
        batch_size beta rand).2.weights, 0 < w ∧ w ≤ 1 := by
  set s := runOps (PER_IS_ReplayBuffer.init capacity alpha state_dim) ops with hsdef
  have hg : GoodState s :=
    goodState_runOps ops _ (goodState_init capacity alpha state_dim) hops
  obtain ⟨hs, hm, hpair, hsz, hocc, hni, hmp⟩ := hg
  have hcap1 : 1 ≤ s.capacity := by omega
  have hleafnn : ∀ j, j < s.capacity → 0 ≤ s.priority_sum (j + s.capacity) := by
    intro j hj
    rcases hpair j hj with ⟨_, h0⟩ | ⟨hpos, _⟩
    · rw [h0]
    · linarith
  obtain ⟨j0, hj0c, hj0t⟩ := hocc hsize
  have hj0pair := hpair j0 hj0c
  have hj0 : 0 < s.priority_sum (j0 + s.capacity) := by
    rcases hj0pair with ⟨ht, _⟩ | ⟨hpos, _⟩
    · exact absurd ht hj0t
    · exact hpos
  have hco0 : s.priority_min (j0 + s.capacity) =
      ((s.priority_sum (j0 + s.capacity) : ℝ) : WithTop ℝ) := by
    rcases hj0pair with ⟨ht, _⟩ | ⟨_, hco⟩
    · exact absurd ht hj0t
    · exact hco
  have htot : 0 < s.total_sum := by
    have := sum_root_ge_node s hs hleafnn (j0 + s.capacity) (by omega) (by omega)
    have h2 : s.total_sum = s.priority_sum 1 := rfl
    rw [h2]
    linarith
  have hminleaf : ∀ j, j < s.capacity → 0 < s.priority_min (j + s.capacity) := by
    intro j hj
    rcases hpair j hj with ⟨ht, _⟩ | ⟨hpos, hco⟩
    · rw [ht]
      simp
    · rw [hco]
      exact_mod_cast hpos
  have hminroot_pos : 0 < s.priority_min 1 :=
    min_node_pos s hm hminleaf (2 * s.capacity) 1 (by omega) le_rfl (by omega)
  have hminroot_le : s.priority_min 1 ≤ s.priority_min (j0 + s.capacity) :=
    min_root_le_node s hm _ (by omega) (by omega)
  have hroot_ne_top : s.priority_min 1 ≠ ⊤ := by
    intro htop
    rw [htop, hco0] at hminroot_le
    exact WithTop.coe_ne_top (top_le_iff.mp hminroot_le)
  obtain ⟨mreal, hmreal⟩ := WithTop.ne_top_iff_exists.mp hroot_ne_top
  have hmreal_pos : 0 < mreal := by
    rw [← hmreal] at hminroot_pos
    exact_mod_cast hminroot_pos
  have huntop : WithTop.untop' 0 s.total_min = mreal := by
    have h2 : s.total_min = s.priority_min 1 := rfl
    rw [h2, ← hmreal]
    exact WithTop.untop'_coe _ _
  have hsizepos : (0 : ℝ) < (s.size : ℝ) := by
    have : (0 : ℕ) < s.size := by omega
    exact_mod_cast this
  intro w hw
  simp only [PER_IS_ReplayBuffer.sample] at hw
  rcases List.mem_map.mp hw with ⟨idx, hidx, rfl⟩
  rcases List.mem_map.mp hidx with ⟨i, _, rfl⟩
  have hp0 : 0 ≤ rand i * s.total_sum := mul_nonneg (hrand i).1 (le_of_lt htot)
  have hpLlt : rand i * s.total_sum < s.total_sum := by
    calc rand i * s.total_sum < 1 * s.total_sum :=
      mul_lt_mul_of_pos_right (hrand i).2 htot
    _ = s.total_sum := one_mul _
  have hfuel : s.capacity ≤ 2 ^ s.capacity * 1 := by
    have := Nat.lt_pow_self (by omega : 1 < 2) s.capacity
    omega
  have hfl := findLoop_pos s hs s.capacity 1 (rand i * s.total_sum) le_rfl
    (by omega) hfuel hp0 hpLlt
  set r := findLoop s s.capacity 1 (rand i * s.total_sum) with hrdef
  have hrge : s.capacity ≤ r := hfl.1
  have hrlt : r < 2 * s.capacity := hfl.2.1
  have hvpos : 0 < s.priority_sum r := hfl.2.2
  have hfindeq : s.find_prefix_sum_idx (rand i * s.total_sum) + s.capacity = r := by
    have h2 : s.find_prefix_sum_idx (rand i * s.total_sum) = r - s.capacity := rfl
    rw [h2]
    omega
  have hvle : s.priority_sum r ≤ s.total_sum := by
    have := sum_root_ge_node s hs hleafnn r (by omega) hrlt
    have h2 : s.total_sum = s.priority_sum 1 := rfl
    rw [h2]
    linarith
  have hslot : r - s.capacity < s.capacity := by omega
  have hleafr : (r - s.capacity) + s.capacity = r := by omega
  have hmle : mreal ≤ s.priority_sum r := by
    rcases hpair (r - s.capacity) hslot with ⟨_, h0⟩ | ⟨_, hco⟩
    · rw [hleafr] at h0
      rw [h0] at hvpos
      norm_num at hvpos
    · rw [hleafr] at hco
      have hle2 := min_root_le_node s hm r (by omega) hrlt
      rw [← hmreal, hco] at hle2
      exact_mod_cast hle2
  rw [hfindeq, huntop]
  have hapos : 0 < mreal / s.total_sum * (s.size : ℝ) :=
    mul_pos (div_pos hmreal_pos htot) hsizepos
  have hbpos : 0 < s.priority_sum r / s.total_sum * (s.size : ℝ) :=
    mul_pos (div_pos hvpos htot) hsizepos
  have hab : mreal / s.total_sum * (s.size : ℝ) ≤
      s.priority_sum r / s.total_sum * (s.size : ℝ) :=
    mul_le_mul_of_nonneg_right ((div_le_div_iff_of_pos_right htot).mpr hmle) (le_of_lt hsizepos)
  have hrpow : (s.priority_sum r / s.total_sum * (s.size : ℝ)) ^ (-beta) ≤
      (mreal / s.total_sum * (s.size : ℝ)) ^ (-beta) :=
    Real.rpow_le_rpow_of_nonpos hapos hab (neg_nonpos.mpr hbeta)
  have hdenpos : 0 < (mreal / s.total_sum * (s.size : ℝ)) ^ (-beta) :=
    Real.rpow_pos_of_pos hapos _
  have hnumpos : 0 < (s.priority_sum r / s.total_sum * (s.size : ℝ)) ^ (-beta) :=
    Real.rpow_pos_of_pos hbpos _
  exact ⟨div_pos hnumpos hdenpos, (div_le_one hdenpos).mpr hrpow⟩

/-- C6, counterexample to the claim as stated: push twice, then
update_priorities([0], [0]) with the non-negative priority 0 (allowed by the
claim), and sample with beta = 1.  The buffer is non-empty and the draw is
in [0, 1), yet the returned weight is 0, not in (0, 1]: max_weight =
(0 * size) ** (-1), which raises ZeroDivisionError in Python and is 0 in
this embedding, and the weight divides by it. -/
theorem sample_weight_zero_counterexample :
    ValidOps 2 [BufferOp.pushOp T0, BufferOp.pushOp T0, BufferOp.updateOp [0] [0]] ∧
    1 ≤ (runOps (PER_IS_ReplayBuffer.init 2 1 3)
      [BufferOp.pushOp T0, BufferOp.pushOp T0, BufferOp.updateOp [0] [0]]).size ∧
    (0 : ℝ) ≤ 1 ∧
    ¬ (∀ w ∈ ((runOps (PER_IS_ReplayBuffer.init 2 1 3)
        [BufferOp.pushOp T0, BufferOp.pushOp T0, BufferOp.updateOp [0] [0]]).sample
          1 1 (fun _ => 1 / 2)).2.weights, 0 < w ∧ w ≤ 1) := by
  set P0 := PER_IS_ReplayBuffer.init 2 1 3 with hP0
  set P1 := (P0.push T0).1 with hP1
  set P2 := (P1.push T0).1 with hP2
  set U := updateStep P2 0 0 with hU
  have hfold : runOps P0
      [BufferOp.pushOp T0, BufferOp.pushOp T0, BufferOp.updateOp [0] [0]] = U := rfl
  have em2 : P2.priority_min =
      setTreeLoop min (Function.update P1.priority_min 3
        ((((1 : ℝ) ^ (1 : ℝ) : ℝ)) : WithTop ℝ)) 3 := by
    rw [hP2, push_priority_min]
    rfl
  have hm23 : P2.priority_min 3 = ((1 : ℝ) : WithTop ℝ) := by
    rw [em2, setTreeLoop_eval_three]
    norm_num [Function.update_apply, Real.one_rpow]
  have emu : U.priority_min =
      setTreeLoop min (Function.update P2.priority_min 2
        ((((0 : ℝ) ^ (1 : ℝ) : ℝ)) : WithTop ℝ)) 2 := by
    rw [hU, updateStep_priority_min]
    rfl
  have hpm1 : U.priority_min 1 = ((0 : ℝ) : WithTop ℝ) := by
    rw [emu, setTreeLoop_eval_two]
    simp only [Function.update_apply]
    norm_num [hm23, Real.rpow_one, ← WithTop.coe_min]
  have hsz : U.size = 2 := by
    simp [hU, hP2, hP1, hP0, updateStep_size, push_state_size,
      PER_IS_ReplayBuffer.init]
  refine ⟨?_, ?_, by norm_num, ?_⟩
  · intro op hop
    rcases List.mem_cons.mp hop with rfl | hop
    · trivial
    rcases List.mem_cons.mp hop with rfl | hop
    · trivial
    rcases List.mem_cons.mp hop with rfl | hop
    · constructor
      · intro i hi
        rcases List.mem_singleton.mp hi with rfl
        omega
      · intro p hp
        rcases List.mem_singleton.mp hp with rfl
        norm_num
    · cases hop
  · rw [hfold, hsz]
    omega
  · rw [hfold]
    intro hall
    have h1 : WithTop.untop' 0 U.total_min = 0 := by
      rw [show U.total_min = U.priority_min 1 from rfl, hpm1]
      exact WithTop.untop'_coe _ _
    have hr1 : List.range 1 = [0] := rfl
    have hwlist : ((U.sample 1 1 (fun _ => 1 / 2)).2.weights) = [0] := by
      simp only [PER_IS_ReplayBuffer.sample, hr1, List.map_cons, List.map_nil]
      congr 1
      rw [h1, zero_div, zero_mul, Real.zero_rpow (by norm_num : -(1 : ℝ) ≠ 0)]
      simp
    have := hall 0 (by rw [hwlist]; exact List.mem_singleton_self 0)
    exact lt_irrefl 0 this.1

theorem sample_weights_in_unit_interval_witness :
    0 < (((runOps (PER_IS_ReplayBuffer.init 2 1 3)
        [BufferOp.pushOp T0]).sample 1 1 (fun _ => 1 / 2)).2.weights).headI ∧
      (((runOps (PER_IS_ReplayBuffer.init 2 1 3)
        [BufferOp.pushOp T0]).sample 1 1 (fun _ => 1 / 2)).2.weights).headI ≤ 1 := by
  have hmain := sample_weights_in_unit_interval 2 1 3 [BufferOp.pushOp T0] ?_ 1 1
    (by norm_num) (fun _ => 1 / 2) (fun i => by norm_num) ?_
  · apply hmain
    have hr1 : List.range 1 = [0] := rfl
    simp only [PER_IS_ReplayBuffer.sample, hr1, List.map_cons, List.map_nil,
      List.headI]
    exact List.mem_singleton_self _
  · intro op hop
    rcases List.mem_cons.mp hop with rfl | hop
    · trivial
    · cases hop
  · simp [runOps, applyOp, push_state_size, PER_IS_ReplayBuffer.init]
